import Mathlib

/-!
# Verification of the desert-storm roster optimizer core

Shallow embedding of the core algorithms of the repository
(`src/stats.py`, `src/utils.py`, the relevant parts of `src/main.py`)
and proofs of the specification claims about them.

Modelling conventions:
* Python floats are modelled as exact rationals (`ℚ`); `math.sqrt` and the
  exponential decay `0.5 ** x` land in `ℝ`.
* A pandas cell that may be `NaN`/unparsable is an `Option`; `to_numeric
  (errors="coerce").fillna(d)` becomes `Option.getD d`.
* Python string comparison (used by pandas stable sorts) is code-point
  lexicographic; we define it explicitly on `Char` values.
-/

namespace DS

/-- `min(max(x, lo), hi)` — the clamping pattern used throughout the code,
e.g. `pd.Series.clip(lo, hi)` and `min(max(v, lo), hi)`. -/
def clip (lo hi x : ℚ) : ℚ := min (max x lo) hi

/-- `Series.clip(0.0, 1.0)`. -/
def clip01 (x : ℚ) : ℚ := clip 0 1 x

/-! ## `stats.eb_rate` (src/stats.py)

Empirical-Bayes shrinkage of a per-player no-show count toward the team
prior.  The Python function returns `(p_hat, sigma)` where `sigma` is a
float square root; we keep `p_hat` rational and return `sigma` as a real. -/

/-- `stats.eb_rate(s, n, p0, n0)`: clamp the inputs, form the Beta
posterior `alpha = p0*n0 + s`, `beta = (1-p0)*n0 + (n-s)` and return the
posterior mean together with its standard error `sqrt(var)`. -/
noncomputable def eb_rate (s n p0 n0 : ℚ) : ℚ × ℝ :=
  let p0c := min (max p0 0) 1
  let n1 := max n 0
  let s1 := min (max s 0) n1
  let n0c := max n0 0
  let alpha0 := p0c * n0c
  let beta0 := (1 - p0c) * n0c
  let alpha := alpha0 + s1
  let beta := beta0 + (n1 - s1)
  let total := alpha + beta
  if total ≤ 0 then (p0c, 0)
  else
    let p_hat := alpha / total
    let v := if 1 < total then (alpha * beta) / (total * total * (total + 1)) else 0
    let v := max v 0
    (p_hat, Real.sqrt (v : ℝ))

/-! ## `stats._quantile` and `stats.compute_team_prior` (src/stats.py) -/

/-- `stats._quantile(sorted_vals, q)`: linear-interpolated quantile of an
already sorted list (`pos = q*(len-1)`, interpolate between `floor` and
`ceil` positions).  Out-of-range indexing cannot occur in the source; the
`getD _ 0` default mirrors the `sorted_vals[low]` accesses. -/
def _quantile (sorted_vals : List ℚ) (q : ℚ) : ℚ :=
  if sorted_vals.isEmpty then 0
  else
    let q1 := min (max q 0) 1
    let pos := q1 * ((sorted_vals.length : ℚ) - 1)
    let low := ⌊pos⌋
    let high := ⌈pos⌉
    if low = high then sorted_vals.getD low.toNat 0
    else
      let frac := pos - (low : ℚ)
      sorted_vals.getD low.toNat 0 +
        (sorted_vals.getD high.toNat 0 - sorted_vals.getD low.toNat 0) * frac

/-- `stats.compute_team_prior(rates, winsor, fallback)`.  The Python code
first drops unparsable/non-finite values and values outside `[0,1]`
(in `ℚ` every value is finite, so only the range filter remains), then
either winsorizes at the 5th/95th percentile (≥ 10 samples), falls back
(winsor with < 10 samples), or takes the plain mean; the result is clamped
to `[0,1]` (the `isfinite` recheck is vacuous over `ℚ`). -/
def compute_team_prior (rates : List ℚ) (winsor : Bool) (fallback : ℚ) : ℚ :=
  let clean := rates.filter (fun v => decide (0 ≤ v) && decide (v ≤ 1))
  if clean.isEmpty then fallback
  else
    let cleanS := clean.mergeSort (fun a b => decide (a ≤ b))
    let mean :=
      if winsor && decide (10 ≤ cleanS.length) then
        let lower := _quantile cleanS (5/100)
        let upper := _quantile cleanS (95/100)
        let clipped := cleanS.map (fun v => min (max v lower) upper)
        clipped.sum / (clipped.length : ℚ)
      else if winsor then fallback
      else cleanS.sum / (cleanS.length : ℚ)
    min (max mean 0) 1

/-! ## `utils.exp_decay_weight` and `stats._agg_rates`

`exp_decay_weight` receives two datetimes; only their day difference
matters, so the embedding takes `delta_days` (the value
`(now_dt - event_dt).total_seconds() / 86400.0`) directly. -/

/-- `utils.exp_decay_weight`: `0.5 ** (max(0, delta_days) / half_life)`,
forced to `1.0` when `half_life_days ≤ 0`. -/
noncomputable def exp_decay_weight (delta_days half_life_days : ℚ) : ℝ :=
  let d := max 0 delta_days
  if half_life_days ≤ 0 then 1
  else Real.rpow (1/2) ((d / half_life_days : ℚ) : ℝ)

/-- One attendance record of a single player for one role bucket, as seen
by `stats._agg_rates` after `_prep`: the 0/1 `Teilgenommen` flag and the
age in days used for the decay weight `w`. -/
structure AttRec where
  attended : Bool
  age_days : ℚ
  deriving Repr, DecidableEq

/-- The decay weight column `w` of `_prep`. -/
noncomputable def recW (half_life_days : ℚ) (r : AttRec) : ℝ :=
  exp_decay_weight r.age_days half_life_days

/-- `_agg_rates`: unweighted `assignments` (group size). -/
def agg_assignments (recs : List AttRec) : ℕ := recs.length

/-- `_agg_rates`: unweighted `shows` (sum of the 0/1 flags). -/
def agg_shows (recs : List AttRec) : ℕ := (recs.filter (·.attended)).length

/-- `_agg_rates`: `show_rate = shows/assignments`, `0` when empty. -/
def agg_show_rate (recs : List AttRec) : ℚ :=
  if 0 < agg_assignments recs then
    (agg_shows recs : ℚ) / (agg_assignments recs : ℚ)
  else 0

/-- `_agg_rates`: `noshow_rate = 1 - show_rate`. -/
def agg_noshow_rate (recs : List AttRec) : ℚ := 1 - agg_show_rate recs

/-- `_agg_rates`: `w_assignments = sum(w)`. -/
noncomputable def agg_w_assignments (hl : ℚ) (recs : List AttRec) : ℝ :=
  (recs.map (recW hl)).sum

/-- `_agg_rates`: `w_shows = sum(Teilgenommen * w)`. -/
noncomputable def agg_w_shows (hl : ℚ) (recs : List AttRec) : ℝ :=
  (recs.map (fun r => (if r.attended then (1 : ℝ) else 0) * recW hl r)).sum

/-- `_agg_rates`: `w_show_rate = w_shows / w_assignments` where positive. -/
noncomputable def agg_w_show_rate (hl : ℚ) (recs : List AttRec) : ℝ :=
  if 0 < agg_w_assignments hl recs then
    agg_w_shows hl recs / agg_w_assignments hl recs
  else 0

/-- `_agg_rates`: `w_noshow_rate = 1 - w_show_rate`. -/
noncomputable def agg_w_noshow_rate (hl : ℚ) (recs : List AttRec) : ℝ :=
  1 - agg_w_show_rate hl recs

/-! ## The event-dropping guard of `stats._prep` (src/stats.py) -/

/-- One raw row of the events table as `_prep` sees it when the guard
runs (names canonicalized, `Teilgenommen` already coerced to 0/1). -/
structure EventRow where
  eventID : String
  playerName : String
  role : String
  attended : Bool
  deriving Repr, DecidableEq

/-- `assigned = role_start | role_sub` (`RoleAtRegistration` in
`{"Start"}` or `{"Ersatz"}`). -/
def rowAssigned (r : EventRow) : Bool :=
  r.role == "Start" || r.role == "Ersatz"

/-- The assigned rows of one event — the group produced by
`assigned_rows.groupby("EventID")` for key `e`. -/
def eventAssignedRows (rows : List EventRow) (e : String) : List EventRow :=
  rows.filter (fun r => rowAssigned r && r.eventID == e)

/-- Membership in `missing_events`: the assigned rows of the event number
at least 3 (`size >= 3`) and their attendance sum is 0 (`sum <= 0` over
0/1 flags). -/
def isMissingEvent (rows : List EventRow) (e : String) : Bool :=
  let grp := eventAssignedRows rows e
  decide (3 ≤ grp.length) && grp.countP (·.attended) == 0

/-- The guard `df = df[~df["EventID"].isin(missing_events)]` of `_prep`. -/
def dropMissingEvents (rows : List EventRow) : List EventRow :=
  rows.filter (fun r => !(isMissingEvent rows r.eventID))

/-- The assigned rows of one player — the input of the per-player
aggregations (`df[df[role_mask]]` / `df[df["assigned"]]` grouped by
`PlayerName`). -/
def perPlayerAssigned (rows : List EventRow) (p : String) : List EventRow :=
  rows.filter (fun r => rowAssigned r && r.playerName == p)

/-- Concrete history used by the spec's decay-identity fixture: 5 shows
and 1 no-show over 6 assignments, at various ages. -/
def recs6 : List AttRec :=
  [⟨true, 1⟩, ⟨true, 5⟩, ⟨true, 12⟩, ⟨true, 30⟩, ⟨true, 61⟩, ⟨false, 40⟩]

/-- Concrete events table: event `e1` has 3 assigned rows, all
`attended=false` (a "corrupted" event); event `e2` has an attended row
and an unassigned row. -/
def rows9 : List EventRow :=
  [⟨"e1", "p", "Start", false⟩, ⟨"e1", "q", "Start", false⟩,
   ⟨"e1", "r", "Ersatz", false⟩, ⟨"e2", "p", "Start", true⟩,
   ⟨"e2", "s", "Gast", false⟩]

/-! ## `utils.canonical_name` (src/utils.py)

The Python function applies, in order: Unicode NFKC normalisation,
removal of the `_ZW_REMOVALS` characters, the `HOMO_TRANSLATE`
Cyrillic→Latin fold, `str.lower()`, whitespace collapsing
(`" ".join(s.split())`) and `str.strip()`.  NFKC is modelled as the
identity: it fixes every scalar value these functions touch (ASCII, the
Cyrillic letters of the tables below, and the zero-width characters have
no NFKC decompositions). -/

/-- The keys of `_ZW_REMOVALS` (all mapped to the empty string):
U+200B..U+200F, U+2060, U+FEFF. -/
def zwChars : List Char :=
  [Char.ofNat 0x200B, Char.ofNat 0x200C, Char.ofNat 0x200D, Char.ofNat 0x200E,
   Char.ofNat 0x200F, Char.ofNat 0x2060, Char.ofNat 0xFEFF]

def isZW (c : Char) : Bool := zwChars.contains c

/-- `HOMO_TRANSLATE`: the Cyrillic→Latin lookalike fold, as (key, value)
pairs in source order. -/
def homoTable : List (Char × Char) :=
  [('А', 'A'), ('В', 'B'), ('Е', 'E'), ('К', 'K'), ('М', 'M'), ('Н', 'H'),
   ('О', 'O'), ('Р', 'P'), ('С', 'S'), ('Т', 'T'), ('Х', 'X'), ('І', 'I'),
   ('Ј', 'J'), ('У', 'Y'),
   ('а', 'a'), ('е', 'e'), ('о', 'o'), ('р', 'p'), ('с', 's'), ('х', 'x'),
   ('у', 'y'), ('к', 'k'), ('м', 'm'), ('т', 't'), ('н', 'h'), ('і', 'i'),
   ('ј', 'j'), ('ѵ', 'y')]

/-- `str.translate(HOMO_TRANSLATE)`, character-wise. -/
def homoF (c : Char) : Char :=
  ((homoTable.find? (fun p => p.1 == c)).map (fun p => p.2)).getD c

/-- Python `str.lower`, restricted to the scalar values this development
manipulates: ASCII letters, the basic Cyrillic block `А–Я`, and the
Cyrillic letters `Ѵ`, `І`, `Ј`; `str.lower` is the identity on every
other character reachable here. -/
def lowerTable : List (Char × Char) :=
  ((List.range 26).map (fun i => (Char.ofNat (65 + i), Char.ofNat (97 + i)))) ++
  ((List.range 32).map (fun i => (Char.ofNat (0x410 + i), Char.ofNat (0x430 + i)))) ++
  [('Ѵ', 'ѵ'), ('І', 'і'), ('Ј', 'ј')]

def pyLower (c : Char) : Char :=
  ((lowerTable.find? (fun p => p.1 == c)).map (fun p => p.2)).getD c

/-- Python `str.split()` whitespace (the ASCII part; no other whitespace
character is reachable in this development). -/
def isSpace (c : Char) : Bool :=
  c == ' ' || c == '\t' || c == '\n' || c == '\r' || c == '\x0B' || c == '\x0C'

/-- Accumulator worker for `str.split()`. -/
def wordsAux : List Char → List Char → List (List Char)
  | [], acc => if acc.isEmpty then [] else [acc.reverse]
  | c :: cs, acc =>
    if isSpace c then
      if acc.isEmpty then wordsAux cs [] else acc.reverse :: wordsAux cs []
    else wordsAux cs (c :: acc)

/-- Python `s.split()`: maximal runs of non-whitespace characters. -/
def wordsOf (l : List Char) : List (List Char) := wordsAux l []

/-- Python `" ".join(words)`. -/
def joinWords : List (List Char) → List Char
  | [] => []
  | [w] => w
  | w :: ws => w ++ ' ' :: joinWords ws

/-- Python `s.strip()` (for whitespace). -/
def stripWs (l : List Char) : List Char :=
  ((l.dropWhile isSpace).reverse.dropWhile isSpace).reverse

/-- `utils.canonical_name` (NFKC modelled as the identity, see above). -/
def canonical_name (s : String) : String :=
  let cs := s.data
  let cs := cs.filter (fun c => !(isZW c))
  let cs := cs.map homoF
  let cs := cs.map pyLower
  let cs := joinWords (wordsOf cs)
  String.mk (stripWs cs)

/-- A character is *pass-stable* when the translate/lower pipeline output
it produces is itself fixed by the translate step.  Every character fails
this only if its lowercase form is a `HOMO_TRANSLATE` key while the
character itself is not (concretely: `Ѵ`, U+0474). -/
def fixedAfterPass (c : Char) : Bool :=
  homoF (pyLower (homoF c)) == pyLower (homoF c)

/-! ## `utils.build_deterministic_roster` (src/utils.py)

The allocator.  A pandas DataFrame is modelled as a list of raw rows plus
column-presence flags (a cell that may be `NaN` is an `Option`; a missing
column makes the corresponding flag `false` and the cells irrelevant).
`df.sort_values(..., kind="mergesort")` is a stable sort; it is modelled
by a stable insertion sort (the stable sort of a total preorder is
unique, so this is the same function). -/

inductive Group
  | A
  | B
  deriving DecidableEq, Repr

inductive Role
  | Start
  | Ersatz
  deriving DecidableEq, Repr

def Group.str : Group → String
  | .A => "A"
  | .B => "B"

def Role.str : Role → String
  | .Start => "Start"
  | .Ersatz => "Ersatz"

def Role.other : Role → Role
  | .Start => .Ersatz
  | .Ersatz => .Start

/-- `STARTERS_PER_GROUP = 20`, `SUBS_PER_GROUP = 10`. -/
def defaultCap : Role → Nat
  | .Start => 20
  | .Ersatz => 10

/-- ASCII fragment of Python `str.upper` (the preference strings are
compared against "A"/"B" only). -/
def asciiUpperChar (c : Char) : Char :=
  if 'a' ≤ c ∧ c ≤ 'z' then Char.ofNat (c.toNat - 32) else c

def asciiUpper (s : String) : String := String.mk (s.data.map asciiUpperChar)

def asciiLowerChar (c : Char) : Char :=
  if 'A' ≤ c ∧ c ≤ 'Z' then Char.ofNat (c.toNat + 32) else c

def asciiLower (s : String) : String := String.mk (s.data.map asciiLowerChar)

/-- Python `str.strip()` on a string. -/
def pyStrip (s : String) : String := String.mk (stripWs s.data)

/-- ASCII fragment of Python `str.title`: uppercase a letter that does
not follow a letter, lowercase the others. -/
def asciiTitleAux : Bool → List Char → List Char
  | _, [] => []
  | prevAlpha, c :: cs =>
    (if c.isAlpha && !prevAlpha then asciiUpperChar c
     else if c.isAlpha then asciiLowerChar c else c) ::
      asciiTitleAux c.isAlpha cs

def asciiTitle (s : String) : String := String.mk (asciiTitleAux false s.data)

/-- `str(item.get("Group", "")).strip().upper()` membership in `GROUPS`. -/
def parseGroup (s : String) : Option Group :=
  let g := asciiUpper (pyStrip s)
  if g = "A" then some .A else if g = "B" then some .B else none

/-- `str(item.get("Role", "")).strip().title()` membership in
`{"Start", "Ersatz"}`. -/
def parseRole (s : String) : Option Role :=
  let r := asciiTitle (pyStrip s)
  if r = "Start" then some .Start else if r = "Ersatz" then some .Ersatz else none

/-- One raw row of `probs_df`.  Cells of possibly-missing numeric columns
are `Option`s (`none` = `NaN`/unparsable, coerced by
`to_numeric(errors="coerce").fillna(...)`). -/
structure RawRow where
  playerName : String := ""
  events_seen : Option Int := none
  risk_penalty : Option ℚ := none
  prefGroup : Option String := none
  prefMode : Option String := none
  prefBoost : Option ℚ := none
  p_start : Option ℚ := none
  p_sub : Option ℚ := none
  p_start_A : Option ℚ := none
  p_start_B : Option ℚ := none
  p_sub_A : Option ℚ := none
  p_sub_B : Option ℚ := none
  deriving Repr, DecidableEq

/-- `probs_df`: the rows plus column-presence flags. -/
structure ProbsDF where
  rows : List RawRow := []
  hasPlayerName : Bool := true
  hasEventsSeen : Bool := false
  hasRiskPenalty : Bool := false
  hasPrefGroup : Bool := false
  hasPrefMode : Bool := false
  hasPrefBoost : Bool := false
  hasPStart : Bool := false
  hasPSub : Bool := false
  hasPStartA : Bool := false
  hasPStartB : Bool := false
  hasPSubA : Bool := false
  hasPSubB : Bool := false
  deriving Repr, DecidableEq

/-- `astype(str)` of a possibly-`NaN` cell (pandas renders `NaN` as
`"nan"`). -/
def pandasStr (o : Option String) : String := o.getD "nan"

/-- `PrefGroup` column after `astype(str).str.upper()`, or `""`. -/
def prefGroupVal (df : ProbsDF) (r : RawRow) : String :=
  if df.hasPrefGroup then asciiUpper (pandasStr r.prefGroup) else ""

/-- `PrefMode` column after `astype(str).str.lower()`, or `""`. -/
def prefModeVal (df : ProbsDF) (r : RawRow) : String :=
  if df.hasPrefMode then asciiLower (pandasStr r.prefMode) else ""

/-- `PrefBoost` after `to_numeric.fillna(0).clip(0,1)`, or `0`. -/
def prefBoostVal (df : ProbsDF) (r : RawRow) : ℚ :=
  if df.hasPrefBoost then clip01 (r.prefBoost.getD 0) else 0

/-- `risk_penalty` after `to_numeric.fillna(0).clip(lower=0)`, or `0`. -/
def riskVal (df : ProbsDF) (r : RawRow) : ℚ :=
  if df.hasRiskPenalty then max 0 (r.risk_penalty.getD 0) else 0

/-- `events_seen` after `to_numeric.fillna(0).astype(int)` (only read
when the column exists). -/
def eventsSeenVal (r : RawRow) : Int := r.events_seen.getD 0

/-- `_ensure_prob(col_base, group)`: group-specific column if present,
else the base column, else `0`. -/
def ensureProb (df : ProbsDF) (r : RawRow) (ro : Role) (g : Group) : ℚ :=
  match ro, g with
  | .Start, .A =>
    if df.hasPStartA then r.p_start_A.getD 0
    else if df.hasPStart then r.p_start.getD 0 else 0
  | .Start, .B =>
    if df.hasPStartB then r.p_start_B.getD 0
    else if df.hasPStart then r.p_start.getD 0 else 0
  | .Ersatz, .A =>
    if df.hasPSubA then r.p_sub_A.getD 0
    else if df.hasPSub then r.p_sub.getD 0 else 0
  | .Ersatz, .B =>
    if df.hasPSubB then r.p_sub_B.getD 0
    else if df.hasPSub then r.p_sub.getD 0 else 0

/-- `p_start_g` / `p_sub_g` after the `.clip(0,1)`. -/
def pVal (df : ProbsDF) (r : RawRow) (ro : Role) (g : Group) : ℚ :=
  clip01 (ensureProb df r ro g)

/-- Effective boost in group `g`: the candidate's boost where `PrefGroup`
matches (default `0.05` when the boost is unset/≤0), else `0`. -/
def effBoost (df : ProbsDF) (r : RawRow) (g : Group) : ℚ :=
  if prefGroupVal df r = g.str then
    (if prefBoostVal df r ≤ 0 then 1/20 else prefBoostVal df r)
  else 0

/-- `score_{g}_{start|sub} = clip(p + eff_boost - risk_penalty, 0, 1)`. -/
def scoreVal (df : ProbsDF) (r : RawRow) (g : Group) (ro : Role) : ℚ :=
  clip01 (pVal df r ro g + effBoost df r g - riskVal df r)

/-- A fully processed candidate row. -/
structure Cand where
  name : String
  events_seen : Int
  prefGroup : String
  prefMode : String
  pStartA : ℚ
  pStartB : ℚ
  pSubA : ℚ
  pSubB : ℚ
  scoreStartA : ℚ
  scoreStartB : ℚ
  scoreSubA : ℚ
  scoreSubB : ℚ
  deriving Repr, DecidableEq

def Cand.pRole (c : Cand) (ro : Role) (g : Group) : ℚ :=
  match ro, g with
  | .Start, .A => c.pStartA
  | .Start, .B => c.pStartB
  | .Ersatz, .A => c.pSubA
  | .Ersatz, .B => c.pSubB

def Cand.score (c : Cand) (g : Group) (ro : Role) : ℚ :=
  match g, ro with
  | .A, .Start => c.scoreStartA
  | .B, .Start => c.scoreStartB
  | .A, .Ersatz => c.scoreSubA
  | .B, .Ersatz => c.scoreSubB

def processRow (df : ProbsDF) (r : RawRow) : Cand :=
  { name := r.playerName
    events_seen := eventsSeenVal r
    prefGroup := prefGroupVal df r
    prefMode := prefModeVal df r
    pStartA := pVal df r .Start .A
    pStartB := pVal df r .Start .B
    pSubA := pVal df r .Ersatz .A
    pSubB := pVal df r .Ersatz .B
    scoreStartA := scoreVal df r .A .Start
    scoreStartB := scoreVal df r .B .Start
    scoreSubA := scoreVal df r .A .Ersatz
    scoreSubB := scoreVal df r .B .Ersatz }

/-- `df.drop_duplicates(subset=["PlayerName"], keep="first")`. -/
def dedupFirstAux (seen : List String) : List RawRow → List RawRow
  | [] => []
  | r :: rs =>
    if r.playerName ∈ seen then dedupFirstAux seen rs
    else r :: dedupFirstAux (r.playerName :: seen) rs

def dedupFirst (rs : List RawRow) : List RawRow := dedupFirstAux [] rs

/-- The processed candidate pool: names canonicalized, one row per
player, columns computed. -/
def buildCands (df : ProbsDF) : List Cand :=
  (dedupFirst (df.rows.map
    (fun r => { r with playerName := canonical_name r.playerName }))).map
    (processRow df)

/-- Python code-point-lexicographic `≤` on character lists (pandas
compares `PlayerName` strings this way). -/
def listCharLE : List Char → List Char → Bool
  | [], _ => true
  | _ :: _, [] => false
  | a :: as_, b :: bs =>
    if a.toNat < b.toNat then true
    else if b.toNat < a.toNat then false
    else listCharLE as_ bs

def strLE (a b : String) : Bool := listCharLE a.data b.data

/-- One key of a multi-key comparison with `ascending=False`: equal keys
fall through to the next key, otherwise larger first. -/
def lexStep {α : Type} [LinearOrder α] (x y : α) (rest : Bool) : Bool :=
  if x = y then rest else decide (y < x)

/-- One key with `ascending=True`: smaller first. -/
def lexStepAsc {α : Type} [LinearOrder α] (x y : α) (rest : Bool) : Bool :=
  if x = y then rest else decide (x < y)

/-- The comparison of `_sort_candidates`:
`sort_values([score, primary, secondary, PlayerName],
ascending=[False, False, False, True])`. -/
def candLE (g : Group) (ro : Role) (a b : Cand) : Bool :=
  lexStep (a.score g ro) (b.score g ro)
    (lexStep (a.pRole ro g) (b.pRole ro g)
      (lexStep (a.pRole ro.other g) (b.pRole ro.other g)
        (strLE a.name b.name)))

/-- Stable insertion into a sorted list (earlier elements stay before
later elements with an equivalent key). -/
def sortedInsert {α : Type} (le : α → α → Bool) (c : α) : List α → List α
  | [] => [c]
  | d :: ds => if le c d then c :: d :: ds else d :: sortedInsert le c ds

/-- Stable sort (extensionally the `kind="mergesort"` sort of pandas). -/
def stableSort {α : Type} (le : α → α → Bool) : List α → List α
  | [] => []
  | c :: cs => sortedInsert le c (stableSort le cs)

/-- `_sort_candidates(group, role)`: unused candidates, stably sorted. -/
def sortCandidates (cands : List Cand) (used : List String) (g : Group)
    (ro : Role) : List Cand :=
  stableSort (candLE g ro) (cands.filter (fun c => !(used.contains c.name)))

/-- `pref_group.isin(GROUPS)`. -/
def recognizedPref (c : Cand) : Bool := c.prefGroup == "A" || c.prefGroup == "B"

def cat1 (g : Group) (c : Cand) : Bool :=
  c.prefGroup == g.str && c.prefMode == "hard"

def cat2 (g : Group) (c : Cand) : Bool :=
  c.prefGroup == g.str && c.prefMode == "soft"

def cat3 (g : Group) (c : Cand) : Bool :=
  !(cat1 g c || cat2 g c) &&
    (c.prefGroup == g.str || !(recognizedPref c) || c.prefGroup == "")

def cat4 (g : Group) (c : Cand) : Bool :=
  !(cat1 g c || cat2 g c || cat3 g c) &&
    (recognizedPref c && c.prefGroup != g.str && c.prefMode != "hard")

def cat5 (g : Group) (c : Cand) : Bool :=
  recognizedPref c && c.prefGroup != g.str && c.prefMode == "hard"

def categories (g : Group) : List (Cand → Bool) :=
  [cat1 g, cat2 g, cat3 g, cat4 g, cat5 g]

/-- `_take_from(available_df, remaining_slots)` together with the
low-data Start guard.  Returns (chosen rows, remaining slots, updated
`start_no_data_taken` counter for the current group). -/
def takeFrom (guardEnabled : Bool) (cap : Int) (ro : Role) :
    List Cand → Nat → Nat → List Cand × Nat × Nat
  | _, 0, noData => ([], 0, noData)
  | [], remaining, noData => ([], remaining, noData)
  | c :: cs, remaining, noData =>
    let isNoData := guardEnabled && (ro == Role.Start) && decide (c.events_seen ≤ 0)
    if isNoData && decide (cap ≤ (noData : Int)) then
      takeFrom guardEnabled cap ro cs remaining noData
    else
      let rest := takeFrom guardEnabled cap ro cs (remaining - 1)
        (if isNoData then noData + 1 else noData)
      (c :: rest.1, rest.2.1, rest.2.2)

/-- State threaded through the category loop of `_pick_for`. -/
structure PickState where
  selected : List Cand
  remaining : Nat
  noData : Nat
  deriving Repr, DecidableEq

/-- The category loop of `_pick_for`. -/
def pickCats (guardEnabled : Bool) (cap : Int) (ro : Role)
    (sorted : List Cand) : List (Cand → Bool) → PickState → PickState
  | [], st => st
  | m :: ms, st =>
    if st.remaining = 0 then st
    else
      let avail := sorted.filter
        (fun c => m c && !((st.selected.map (fun x => x.name)).contains c.name))
      let t := takeFrom guardEnabled cap ro avail st.remaining st.noData
      pickCats guardEnabled cap ro sorted ms ⟨st.selected ++ t.1, t.2.1, t.2.2⟩

/-- The `RuntimeError` message of `_pick_for`. -/
def missingMsg (g : Group) (ro : Role) (k : Nat) : String :=
  "Not enough candidates to fill " ++ g.str ++ " " ++ ro.str ++
    " (missing " ++ toString k ++ ")."

/-- The leftover pass of `_pick_for` (`if remaining > 0: fallback = ...`). -/
def pickLeftover (guardEnabled : Bool) (cap : Int) (ro : Role)
    (sorted : List Cand) (st0 : PickState) : PickState :=
  if st0.remaining ≠ 0 then
    { selected := st0.selected ++
        (takeFrom guardEnabled cap ro
          (sorted.filter (fun c =>
            !((st0.selected.map (fun x => x.name)).contains c.name)))
          st0.remaining st0.noData).1,
      remaining :=
        (takeFrom guardEnabled cap ro
          (sorted.filter (fun c =>
            !((st0.selected.map (fun x => x.name)).contains c.name)))
          st0.remaining st0.noData).2.1,
      noData :=
        (takeFrom guardEnabled cap ro
          (sorted.filter (fun c =>
            !((st0.selected.map (fun x => x.name)).contains c.name)))
          st0.remaining st0.noData).2.2 }
  else st0

/-- The final shortage check of `_pick_for` (raise or return). -/
def pickFinish (g : Group) (ro : Role) (st1 : PickState) :
    Except String (List Cand × Nat) :=
  if st1.remaining ≠ 0 then .error (missingMsg g ro st1.remaining)
  else .ok (st1.selected, st1.noData)

/-- `_pick_for(group, role, count)`: categories, leftover pass, raise on
shortage.  Returns the picked rows and the updated no-data counter. -/
def pickFor (guardEnabled : Bool) (cap : Int) (cands : List Cand)
    (used : List String) (noData : Nat) (g : Group) (ro : Role)
    (count : Nat) : Except String (List Cand × Nat) :=
  if (sortCandidates cands used g ro).isEmpty then .ok ([], noData)
  else
    pickFinish g ro (pickLeftover guardEnabled cap ro
      (sortCandidates cands used g ro)
      (pickCats guardEnabled cap ro (sortCandidates cands used g ro)
        (categories g) ⟨[], count, noData⟩))

/-- One entry of `forced_assignments`. -/
structure ForcedItem where
  playerName : String
  group : String
  role : String
  deriving Repr, DecidableEq

/-- One output roster row (`{"PlayerName", "Group", "Role"}`). -/
structure RRow where
  playerName : String
  group : Group
  role : Role
  deriving Repr, DecidableEq

/-- The forced-assignment loop: canonicalize, validate group/role/name,
deduplicate by first occurrence, collect rows. -/
def forcedRowsAux : List ForcedItem → List String → List RRow →
    List String × List RRow
  | [], used, acc => (used, acc)
  | item :: rest, used, acc =>
    match parseGroup item.group, parseRole item.role with
    | some g, some r =>
      let p := canonical_name item.playerName
      if p = "" then forcedRowsAux rest used acc
      else if used.contains p then forcedRowsAux rest used acc
      else forcedRowsAux rest (used ++ [p]) (acc ++ [⟨p, g, r⟩])
    | _, _ => forcedRowsAux rest used acc

/-- `capacities_by_group_role` handling: `max(0, int(value))` with the
global default on a missing/uncastable entry. -/
def capVal (capsSpec : Option (Group → Role → Option Int)) (g : Group)
    (ro : Role) : Nat :=
  match capsSpec with
  | none => defaultCap ro
  | some f => (max 0 ((f g ro).getD (defaultCap ro))).toNat

/-- State of the slot-filling loop. -/
structure BuildState where
  used : List String
  rows : List RRow
  noDataA : Nat
  noDataB : Nat
  deriving Repr, DecidableEq

def BuildState.noData (st : BuildState) : Group → Nat
  | .A => st.noDataA
  | .B => st.noDataB

def BuildState.setNoData (st : BuildState) : Group → Nat → BuildState
  | .A, n => { st with noDataA := n }
  | .B, n => { st with noDataB := n }

/-- The `for group, role, cap in order` loop. -/
def fillSlots (guardEnabled : Bool) (cap : Int) (cands : List Cand) :
    List (Group × Role × Nat) → BuildState → Except String BuildState
  | [], st => .ok st
  | (g, ro, cnt) :: rest, st =>
    match pickFor guardEnabled cap cands st.used (st.noData g) g ro cnt with
    | .error e => .error e
    | .ok (picked, nd) =>
      fillSlots guardEnabled cap cands rest
        ((BuildState.setNoData
          { st with
            used := st.used ++ picked.map (fun c => c.name),
            rows := st.rows ++ picked.map (fun c => ⟨c.name, g, ro⟩) }) g nd)

def countSlot (rows : List RRow) (g : Group) (ro : Role) : Nat :=
  (rows.filter (fun r => r.group == g && r.role == ro)).length

/-- The literal slot `order` of the source, with the capacity values. -/
def buildOrder (capsSpec : Option (Group → Role → Option Int)) :
    List (Group × Role × Nat) :=
  [(Group.A, Role.Start, capVal capsSpec .A .Start),
   (Group.B, Role.Start, capVal capsSpec .B .Start),
   (Group.A, Role.Ersatz, capVal capsSpec .A .Ersatz),
   (Group.B, Role.Ersatz, capVal capsSpec .B .Ersatz)]

/-- The safety assertions at the end of the builder (no duplicates, per
slot exactly remaining capacity plus forced count), in source order. -/
def buildAsserts (capsSpec : Option (Group → Role → Option Int))
    (frows rows : List RRow) : Except String (List RRow) :=
  if ¬(rows.map (fun r => r.playerName)).Nodup then
    .error "Duplicate players in roster"
  else if countSlot rows .A .Start ≠
      capVal capsSpec .A .Start + countSlot frows .A .Start then
    .error "Wrong starters in A"
  else if countSlot rows .A .Ersatz ≠
      capVal capsSpec .A .Ersatz + countSlot frows .A .Ersatz then
    .error "Wrong subs in A"
  else if countSlot rows .B .Start ≠
      capVal capsSpec .B .Start + countSlot frows .B .Start then
    .error "Wrong starters in B"
  else if countSlot rows .B .Ersatz ≠
      capVal capsSpec .B .Ersatz + countSlot frows .B .Ersatz then
    .error "Wrong subs in B"
  else .ok rows

/-- `utils.build_deterministic_roster(probs_df, forced_assignments,
capacities_by_group_role)` with the configuration value
`START_NO_DATA_CAP` passed explicitly (module global `_CFG`).  Python
exceptions (`ValueError`, `RuntimeError`, `AssertionError`) are the
`Except.error` branch. -/
def build_deterministic_roster (df : ProbsDF) (forced : List ForcedItem)
    (capsSpec : Option (Group → Role → Option Int))
    (start_no_data_cap : Int) : Except String (List RRow) :=
  if !df.hasPlayerName then
    .error "probs_df benötigt eine Spalte PlayerName"
  else
    match fillSlots (df.hasEventsSeen && decide (0 ≤ start_no_data_cap))
        start_no_data_cap (buildCands df) (buildOrder capsSpec)
        ⟨(forcedRowsAux forced [] []).1, (forcedRowsAux forced [] []).2,
          0, 0⟩ with
    | .error e => .error e
    | .ok st => buildAsserts capsSpec (forcedRowsAux forced [] []).2 st.rows

/-- `main.py` step 5: clamp `attend_prob` of hard-committed players up
to the configured floor
(`pool.loc[hard_mask, "attend_prob"].clip(lower=hard_floor)` with
`hard_floor = min(max(float(cfg.hard_commit_floor), 0), 1)`). -/
def applyHardCommitFloor (pool : List (String × ℚ)) (seenForced : List String)
    (floorCfg : ℚ) : List (String × ℚ) :=
  pool.map (fun nr =>
    if seenForced.contains nr.1 then (nr.1, max nr.2 (min (max floorCfg 0) 1))
    else nr)

/-- `DEFAULT_ATTENDANCE_CONFIG.hard_commit_floor` (src/attendance_config.py). -/
def hard_commit_floor_default : ℚ := 92/100

/-- The candidate ordering as the spec's sentence describes it (slot
score descending, role-appropriate raw probability descending, canonical
name ascending — no other-role key).  Stated from the spec's words, for
comparison with `candLE`. -/
def specSortLE (g : Group) (ro : Role) (a b : Cand) : Bool :=
  lexStep (a.score g ro) (b.score g ro)
    (lexStep (a.pRole ro g) (b.pRole ro g) (strLE a.name b.name))

/-- Two candidates with equal `p_start` and equal slot score but
different `p_sub`: the sort tie-breaks on `p_sub`, not on the name. -/
def df4 : ProbsDF :=
  { rows := [
      { playerName := "a", p_start := some (1/2), p_sub := some (1/10) },
      { playerName := "b", p_start := some (1/2), p_sub := some (1/2) }],
    hasPStart := true, hasPSub := true }

/-- A pool whose only player has attend probability `0.05` in every
role column. -/
def df5 : ProbsDF :=
  { rows := [{ playerName := "Lowball", p_start := some (1/20),
               p_sub := some (1/20) }],
    hasPStart := true, hasPSub := true }

/-- Remaining capacities all zero (all slots pre-filled by forced
assignments). -/
def capsZero : Group → Role → Option Int := fun _ _ => some 0

/-- One remaining Team-A starter slot and an empty candidate pool. -/
def capsOneAStart : Group → Role → Option Int
  | .A, .Start => some 1
  | _, _ => some 0

/-- The empty `probs_df` (a `PlayerName` column and nothing else). -/
def dfEmpty : ProbsDF := { rows := [], hasPStart := true }

/-- A small pool for exercising a successful run. -/
def df3 : ProbsDF :=
  { rows := [
      { playerName := "Anna", p_start := some (9/10), prefGroup := some "A",
        prefMode := some "hard" },
      { playerName := "Ben", p_start := some (7/10) },
      { playerName := "Cara", p_start := some (3/10) }],
    hasPStart := true, hasPrefGroup := true, hasPrefMode := true }

def caps3A : Group → Role → Option Int
  | .A, .Start => some 2
  | _, _ => some 0

/-! ## Team-B Start threshold and fallback (claim C1)

Modelled from the spec: the threshold/fallback extension of
`build_deterministic_roster` (`min_attend_start`, `min_b_starters`,
`allow_unfilled`, `_selection_stage`) is called from `src/main.py` and
exercised by the test suite, but its implementing code is not present
under `src/` (the `utils.py` there predates it).  The Team-B Start
selection pass below follows the spec's words (§4.5 step 5: enforce the
threshold; when that leaves fewer than `min_b_starters` starters, relax
it for just enough additional candidates, tie-broken by fewer
`events_seen` first, then canonical name, tagging those placements with
a distinct `selection_stage`) and the stage names of the test suite
(`"B-start-main"` / `"B-start-fallback"`). -/

structure FbCand where
  name : String
  attend_prob : ℚ
  events_seen : Int
  deriving Repr, DecidableEq

/-- Main-pass order: `attend_prob` descending, canonical name ascending. -/
def fbMainLE (a b : FbCand) : Bool :=
  lexStep a.attend_prob b.attend_prob (strLE a.name b.name)

/-- Fallback order: *fewer* `events_seen` first, then canonical name. -/
def fbFallbackLE (a b : FbCand) : Bool :=
  lexStepAsc a.events_seen b.events_seen (strLE a.name b.name)

/-- The threshold-respecting main pick: eligible candidates in main-pass
order, up to capacity. -/
def bStartMainPick (cands : List FbCand) (threshold : ℚ) (cap : Nat) :
    List FbCand :=
  (((stableSort fbMainLE cands)).filter
    (fun c => decide (threshold ≤ c.attend_prob))).take cap

/-- The fallback queue: below-threshold candidates in fallback order. -/
def bStartQueue (cands : List FbCand) (threshold : ℚ) : List FbCand :=
  stableSort fbFallbackLE ((stableSort fbMainLE cands).filter
    (fun c => decide (c.attend_prob < threshold)))

/-- How many fallback candidates are admitted: just enough to reach
`min_b_starters`, never beyond the remaining capacity. -/
def bStartNeed (cands : List FbCand) (threshold : ℚ) (cap minB : Nat) : Nat :=
  min (minB - (bStartMainPick cands threshold cap).length)
    (cap - (bStartMainPick cands threshold cap).length)

/-- Modelled from the spec: the Team-B Start selection under a minimum
`attend_prob` threshold with capacity `cap` and configured minimum
`minB = min_b_starters`.  Returns the placed candidates with their
`selection_stage`, and the fallback-pass trace rows (every below-
threshold candidate examined by the pass, in fallback order). -/
def bStartSelection (cands : List FbCand) (threshold : ℚ) (cap minB : Nat) :
    List (FbCand × String) × List (FbCand × String) :=
  if (bStartMainPick cands threshold cap).length < minB then
    ((bStartMainPick cands threshold cap).map (fun c => (c, "B-start-main")) ++
       ((bStartQueue cands threshold).take
         (bStartNeed cands threshold cap minB)).map
         (fun c => (c, "B-start-fallback")),
     (bStartQueue cands threshold).map (fun c => (c, "B-start-fallback")))
  else
    ((bStartMainPick cands threshold cap).map (fun c => (c, "B-start-main")),
     [])

/-- The spec's fallback tie-break fixture: equal `attend_prob = 0.5`,
`events_seen` 10 versus 2. -/
def fbVeteran : FbCand := ⟨"veteran", 1/2, 10⟩

def fbNewbie : FbCand := ⟨"newbie", 1/2, 2⟩

/-! ## Helper lemmas -/

theorem list_sum_nonneg {l : List ℚ} (h : ∀ x ∈ l, 0 ≤ x) : 0 ≤ l.sum := by
  induction l with
  | nil => simp
  | cons a t ih =>
    simp only [List.sum_cons]
    have ha := h a (by simp)
    have ht := ih (fun x hx => h x (by simp [hx]))
    linarith

theorem list_sum_le_length {l : List ℚ} (h : ∀ x ∈ l, x ≤ 1) :
    l.sum ≤ (l.length : ℚ) := by
  induction l with
  | nil => simp
  | cons a t ih =>
    simp only [List.sum_cons, List.length_cons]
    have ha := h a (by simp)
    have ht := ih (fun x hx => h x (by simp [hx]))
    push_cast
    linarith

theorem list_getD_mem_Icc {l : List ℚ} (h : ∀ x ∈ l, 0 ≤ x ∧ x ≤ 1) (i : ℕ) :
    0 ≤ l.getD i 0 ∧ l.getD i 0 ≤ 1 := by
  rcases lt_or_le i l.length with hi | hi
  · have hv : l.getD i 0 = l[i] := by
      rw [List.getD_eq_getElem?_getD, List.getElem?_eq_getElem hi, Option.getD_some]
    rw [hv]
    exact h _ (List.getElem_mem hi)
  · have hv : l.getD i 0 = 0 := by
      rw [List.getD_eq_getElem?_getD, List.getElem?_eq_none_iff.mpr hi]
      rfl
    rw [hv]; norm_num

/-- The interpolated quantile of a list of values in `[0,1]` lies in `[0,1]`. -/
theorem _quantile_mem_Icc {l : List ℚ} (h : ∀ x ∈ l, 0 ≤ x ∧ x ≤ 1) (q : ℚ) :
    0 ≤ _quantile l q ∧ _quantile l q ≤ 1 := by
  simp only [_quantile]
  set pos := min (max q 0) 1 * ((l.length : ℚ) - 1) with hpos
  split_ifs with h1 h2
  · norm_num
  · exact list_getD_mem_Icc h _
  · obtain ⟨ha0, ha1⟩ := list_getD_mem_Icc h (⌊pos⌋).toNat
    obtain ⟨hb0, hb1⟩ := list_getD_mem_Icc h (⌈pos⌉).toNat
    have hf0 : 0 ≤ pos - (⌊pos⌋ : ℚ) := by
      have := Int.floor_le pos
      linarith
    have hf1 : pos - (⌊pos⌋ : ℚ) ≤ 1 := by
      have := Int.lt_floor_add_one pos
      linarith
    constructor
    · nlinarith [mul_nonneg ha0 hf0, mul_nonneg hb0 hf0]
    · nlinarith [mul_nonneg hb0 hf0, mul_le_one₀ hb1 hf0 hf1]

/-! ### Lemmas about the stable sort and its comparators -/

theorem listCharLE_total : ∀ a b : List Char,
    (listCharLE a b || listCharLE b a) = true := by
  intro a
  induction a with
  | nil => intro b; simp [listCharLE]
  | cons x xs ih =>
    intro b
    cases b with
    | nil => simp [listCharLE]
    | cons y ys =>
      unfold listCharLE
      rcases lt_trichotomy x.toNat y.toNat with h | h | h
      · simp [h]
      · simp [h, lt_irrefl, ih ys]
      · simp [h, Nat.lt_asymm h]

theorem listCharLE_trans : ∀ a b c : List Char,
    listCharLE a b = true → listCharLE b c = true → listCharLE a c = true := by
  intro a
  induction a with
  | nil => intro b c _ _; rfl
  | cons x xs ih =>
    intro b c h1 h2
    cases b with
    | nil => simp [listCharLE] at h1
    | cons y ys =>
      cases c with
      | nil => simp [listCharLE] at h2
      | cons z zs =>
        unfold listCharLE at h1 h2 ⊢
        split_ifs at h1 h2 ⊢ <;>
          first
            | rfl
            | exact ih ys zs h1 h2
            | (exfalso; omega)

theorem strLE_total (a b : String) : (strLE a b || strLE b a) = true :=
  listCharLE_total a.data b.data

theorem strLE_trans (a b c : String) (h1 : strLE a b = true)
    (h2 : strLE b c = true) : strLE a c = true :=
  listCharLE_trans a.data b.data c.data h1 h2

theorem lexStep_total {α : Type} [LinearOrder α] (x y : α) (r1 r2 : Bool)
    (hr : (r1 || r2) = true) : (lexStep x y r1 || lexStep y x r2) = true := by
  unfold lexStep
  by_cases e : x = y
  · rw [if_pos e, if_pos e.symm]
    exact hr
  · rw [if_neg e, if_neg (Ne.symm e)]
    rcases lt_or_gt_of_ne e with h | h <;> simp [h]

theorem lexStep_trans {α : Type} [LinearOrder α] (x y z : α)
    (r1 r2 r3 : Bool) (hr : r1 = true → r2 = true → r3 = true)
    (h1 : lexStep x y r1 = true) (h2 : lexStep y z r2 = true) :
    lexStep x z r3 = true := by
  unfold lexStep at h1 h2 ⊢
  by_cases e1 : x = y <;> by_cases e2 : y = z
  · rw [if_pos (e1.trans e2)]
    rw [if_pos e1] at h1
    rw [if_pos e2] at h2
    exact hr h1 h2
  · rw [if_pos e1] at h1
    rw [if_neg e2] at h2
    subst e1
    rw [if_neg e2]
    exact h2
  · rw [if_neg e1] at h1
    rw [if_pos e2] at h2
    subst e2
    rw [if_neg e1]
    exact h1
  · rw [if_neg e1] at h1
    rw [if_neg e2] at h2
    simp only [decide_eq_true_eq] at h1 h2
    have hzx : z < x := lt_trans h2 h1
    rw [if_neg (ne_of_gt hzx)]
    simpa using hzx

theorem lexStepAsc_total {α : Type} [LinearOrder α] (x y : α) (r1 r2 : Bool)
    (hr : (r1 || r2) = true) :
    (lexStepAsc x y r1 || lexStepAsc y x r2) = true := by
  unfold lexStepAsc
  by_cases e : x = y
  · rw [if_pos e, if_pos e.symm]
    exact hr
  · rw [if_neg e, if_neg (Ne.symm e)]
    rcases lt_or_gt_of_ne e with h | h <;> simp [h]

theorem lexStepAsc_trans {α : Type} [LinearOrder α] (x y z : α)
    (r1 r2 r3 : Bool) (hr : r1 = true → r2 = true → r3 = true)
    (h1 : lexStepAsc x y r1 = true) (h2 : lexStepAsc y z r2 = true) :
    lexStepAsc x z r3 = true := by
  unfold lexStepAsc at h1 h2 ⊢
  by_cases e1 : x = y <;> by_cases e2 : y = z
  · rw [if_pos (e1.trans e2)]
    rw [if_pos e1] at h1
    rw [if_pos e2] at h2
    exact hr h1 h2
  · rw [if_pos e1] at h1
    rw [if_neg e2] at h2
    subst e1
    rw [if_neg e2]
    exact h2
  · rw [if_neg e1] at h1
    rw [if_pos e2] at h2
    subst e2
    rw [if_neg e1]
    exact h1
  · rw [if_neg e1] at h1
    rw [if_neg e2] at h2
    simp only [decide_eq_true_eq] at h1 h2
    have hxz : x < z := lt_trans h1 h2
    rw [if_neg (ne_of_lt hxz)]
    simpa using hxz

theorem candLE_total (g : Group) (ro : Role) (a b : Cand) :
    (candLE g ro a b || candLE g ro b a) = true := by
  unfold candLE
  exact lexStep_total _ _ _ _ (lexStep_total _ _ _ _
    (lexStep_total _ _ _ _ (strLE_total a.name b.name)))

theorem candLE_trans (g : Group) (ro : Role) (a b c : Cand)
    (h1 : candLE g ro a b = true) (h2 : candLE g ro b c = true) :
    candLE g ro a c = true := by
  unfold candLE at h1 h2 ⊢
  refine lexStep_trans _ _ _ _ _ _ (fun p1 p2 => ?_) h1 h2
  refine lexStep_trans _ _ _ _ _ _ (fun q1 q2 => ?_) p1 p2
  refine lexStep_trans _ _ _ _ _ _ (fun s1 s2 => ?_) q1 q2
  exact strLE_trans _ _ _ s1 s2

theorem fbMainLE_total (a b : FbCand) :
    (fbMainLE a b || fbMainLE b a) = true :=
  lexStep_total _ _ _ _ (strLE_total a.name b.name)

theorem fbMainLE_trans (a b c : FbCand) (h1 : fbMainLE a b = true)
    (h2 : fbMainLE b c = true) : fbMainLE a c = true :=
  lexStep_trans _ _ _ _ _ _ (fun s1 s2 => strLE_trans _ _ _ s1 s2) h1 h2

theorem fbFallbackLE_total (a b : FbCand) :
    (fbFallbackLE a b || fbFallbackLE b a) = true :=
  lexStepAsc_total _ _ _ _ (strLE_total a.name b.name)

theorem fbFallbackLE_trans (a b c : FbCand) (h1 : fbFallbackLE a b = true)
    (h2 : fbFallbackLE b c = true) : fbFallbackLE a c = true :=
  lexStepAsc_trans _ _ _ _ _ _ (fun s1 s2 => strLE_trans _ _ _ s1 s2) h1 h2

theorem sortedInsert_perm {α : Type} (le : α → α → Bool) (c : α) :
    ∀ l : List α, (sortedInsert le c l).Perm (c :: l) := by
  intro l
  induction l with
  | nil => simp [sortedInsert]
  | cons d ds ih =>
    unfold sortedInsert
    split_ifs
    · exact .refl _
    · exact (ih.cons d).trans (List.Perm.swap c d ds)

theorem stableSort_perm {α : Type} (le : α → α → Bool) :
    ∀ l : List α, (stableSort le l).Perm l := by
  intro l
  induction l with
  | nil => exact .refl _
  | cons c cs ih =>
    exact (sortedInsert_perm le c (stableSort le cs)).trans (ih.cons c)

theorem sortedInsert_pairwise {α : Type} (le : α → α → Bool)
    (htrans : ∀ a b c, le a b = true → le b c = true → le a c = true)
    (htot : ∀ a b, (le a b || le b a) = true) (c : α) :
    ∀ l : List α, List.Pairwise (fun x y => le x y = true) l →
      List.Pairwise (fun x y => le x y = true) (sortedInsert le c l) := by
  intro l hl
  induction l with
  | nil => simp [sortedInsert]
  | cons d ds ih =>
    obtain ⟨hd, hds⟩ := List.pairwise_cons.mp hl
    unfold sortedInsert
    split_ifs with hcd
    · refine List.pairwise_cons.mpr ⟨?_, hl⟩
      intro x hx
      rcases List.mem_cons.mp hx with rfl | hx'
      · exact hcd
      · exact htrans c d x hcd (hd x hx')
    · refine List.pairwise_cons.mpr ⟨?_, ih hds⟩
      intro x hx
      rcases List.mem_cons.mp ((sortedInsert_perm le c ds).mem_iff.mp hx)
        with h | hx''
      · subst h
        have h3 := htot x d
        have h4 : le x d = false := Bool.eq_false_iff.mpr (by simpa using hcd)
        rw [h4, Bool.false_or] at h3
        exact h3
      · exact hd x hx''

theorem stableSort_pairwise {α : Type} (le : α → α → Bool)
    (htrans : ∀ a b c, le a b = true → le b c = true → le a c = true)
    (htot : ∀ a b, (le a b || le b a) = true) :
    ∀ l : List α, List.Pairwise (fun x y => le x y = true) (stableSort le l) := by
  intro l
  induction l with
  | nil => simp [stableSort]
  | cons c cs ih => exact sortedInsert_pairwise le htrans htot c _ ih

/-! ### Lemmas about `_take_from`, `_pick_for` and the fill loop -/

theorem takeFrom_spec (ge : Bool) (cap : Int) (ro : Role) :
    ∀ (avail : List Cand) (rem nd : Nat),
      (takeFrom ge cap ro avail rem nd).1.length +
          (takeFrom ge cap ro avail rem nd).2.1 = rem ∧
        (takeFrom ge cap ro avail rem nd).1.Sublist avail := by
  intro avail
  induction avail with
  | nil =>
    intro rem nd
    cases rem <;> simp [takeFrom]
  | cons c cs ih =>
    intro rem nd
    cases rem with
    | zero => simp [takeFrom]
    | succ r =>
      simp only [takeFrom, Nat.add_sub_cancel]
      split_ifs with hskip hnd
      · obtain ⟨hlen, hsub⟩ := ih (r + 1) nd
        exact ⟨hlen, hsub.cons c⟩
      · obtain ⟨hlen, hsub⟩ := ih r (nd + 1)
        refine ⟨?_, hsub.cons₂ c⟩
        simp only [List.length_cons]
        omega
      · obtain ⟨hlen, hsub⟩ := ih r nd
        refine ⟨?_, hsub.cons₂ c⟩
        simp only [List.length_cons]
        omega

theorem pickCats_len (ge : Bool) (cap : Int) (ro : Role)
    (sorted : List Cand) :
    ∀ (masks : List (Cand → Bool)) (st : PickState),
      (pickCats ge cap ro sorted masks st).selected.length +
          (pickCats ge cap ro sorted masks st).remaining =
        st.selected.length + st.remaining := by
  intro masks
  induction masks with
  | nil => intro st; rfl
  | cons m ms ih =>
    intro st
    unfold pickCats
    split_ifs with h0
    · rfl
    · rw [ih]
      simp only [List.length_append]
      have := (takeFrom_spec ge cap ro
        (sorted.filter (fun c => m c &&
          !((st.selected.map (fun x => x.name)).contains c.name)))
        st.remaining st.noData).1
      omega

theorem forcedRowsAux_append : ∀ (pre rest : List ForcedItem)
    (used : List String) (acc : List RRow),
    forcedRowsAux (pre ++ rest) used acc =
      forcedRowsAux rest (forcedRowsAux pre used acc).1
        (forcedRowsAux pre used acc).2 := by
  intro pre
  induction pre with
  | nil => intro rest used acc; rfl
  | cons item pre' ih =>
    intro rest used acc
    simp only [List.cons_append, forcedRowsAux]
    cases hpg : parseGroup item.group with
    | none => simp only []; exact ih rest used acc
    | some g =>
      cases hpr : parseRole item.role with
      | none => simp only []; exact ih rest used acc
      | some r =>
        simp only []
        split_ifs <;> apply ih

theorem forcedRowsAux_suffix : ∀ (items : List ForcedItem)
    (used : List String) (acc : List RRow),
    ∃ suf, (forcedRowsAux items used acc).2 = acc ++ suf := by
  intro items
  induction items with
  | nil => intro used acc; exact ⟨[], by simp [forcedRowsAux]⟩
  | cons item rest ih =>
    intro used acc
    unfold forcedRowsAux
    cases hpg : parseGroup item.group with
    | none => exact ih used acc
    | some g =>
      cases hpr : parseRole item.role with
      | none => exact ih used acc
      | some r =>
        dsimp only
        split_ifs
        · exact ih used acc
        · exact ih used acc
        · obtain ⟨suf, hsuf⟩ := ih (used ++ [canonical_name item.playerName])
            (acc ++ [⟨canonical_name item.playerName, g, r⟩])
          exact ⟨⟨canonical_name item.playerName, g, r⟩ :: suf, by
            rw [hsuf]; simp⟩

theorem fillSlots_rows_suffix (ge : Bool) (cap : Int) (cands : List Cand) :
    ∀ (slots : List (Group × Role × Nat)) (st st' : BuildState),
      fillSlots ge cap cands slots st = .ok st' →
      ∃ suf, st'.rows = st.rows ++ suf := by
  intro slots
  induction slots with
  | nil =>
    intro st st' h
    simp only [fillSlots] at h
    cases h
    exact ⟨[], by simp⟩
  | cons slot rest ih =>
    intro st st' h
    obtain ⟨g, ro, cnt⟩ := slot
    simp only [fillSlots] at h
    cases hpick : pickFor ge cap cands st.used (st.noData g) g ro cnt with
    | error e => rw [hpick] at h; cases h
    | ok res =>
      rw [hpick] at h
      obtain ⟨suf, hsuf⟩ := ih _ _ h
      refine ⟨res.1.map (fun c => ⟨c.name, g, ro⟩) ++ suf, ?_⟩
      rw [hsuf]
      cases g <;> simp [BuildState.setNoData, List.append_assoc]

theorem build_ok_rows (df : ProbsDF) (forced : List ForcedItem)
    (capsSpec : Option (Group → Role → Option Int)) (cap : Int)
    (out : List RRow)
    (h : build_deterministic_roster df forced capsSpec cap = .ok out) :
    ∃ suf, out = (forcedRowsAux forced [] []).2 ++ suf := by
  unfold build_deterministic_roster at h
  split_ifs at h with h1
  cases hfs : fillSlots (df.hasEventsSeen && decide (0 ≤ cap)) cap
      (buildCands df) (buildOrder capsSpec)
      ⟨(forcedRowsAux forced [] []).1, (forcedRowsAux forced [] []).2, 0, 0⟩
    with
  | error e =>
    rw [hfs] at h
    exact absurd h (by simp)
  | ok st =>
    rw [hfs] at h
    dsimp only at h
    obtain ⟨suf, hsuf⟩ := fillSlots_rows_suffix _ _ _ _ _ _ hfs
    unfold buildAsserts at h
    split_ifs at h
    simp only [Except.ok.injEq] at h
    exact ⟨suf, by rw [← h, hsuf]⟩

/-- First character of the `RuntimeError` message differs from the
assertion message, for every group/role/count. -/
theorem missingMsg_ne_assert (g : Group) (ro : Role) (k : Nat) :
    missingMsg g ro k ≠ "Wrong starters in A" := by
  intro h
  have hd : (missingMsg g ro k).data = ("Wrong starters in A").data := by rw [h]
  unfold missingMsg at hd
  have h1 : ("Not enough candidates to fill ").data =
      'N' :: ("ot enough candidates to fill ").data := by decide
  simp only [String.data_append, h1, List.cons_append, List.append_assoc] at hd
  simp at hd

theorem list_sum_map_one {α : Type} (l : List α) :
    (l.map (fun _ => (1 : ℝ))).sum = (l.length : ℝ) := by
  induction l with
  | nil => simp
  | cons a t ih =>
    simp only [List.map_cons, List.sum_cons, List.length_cons, ih]
    push_cast
    ring

theorem list_sum_map_indicator {α : Type} (p : α → Bool) (l : List α) :
    (l.map (fun r => if p r then (1 : ℝ) else 0)).sum =
      ((l.filter p).length : ℝ) := by
  induction l with
  | nil => simp
  | cons a t ih =>
    by_cases h : p a <;>
      simp only [List.map_cons, List.sum_cons, List.filter_cons, h, ih,
        if_true, if_false, List.length_cons, ite_true, ite_false] <;>
      push_cast <;> ring

/-! ## Claim theorems: stats -/

/-- **C2.** For inputs `p0=0.2, n0=4, s=3, n=5`, `eb_rate` returns
`p_hat = 3.8/9 = 19/45` and `sigma = sqrt(3.8*5.2/(81*10)) = sqrt(247/10125)`;
in general, for `0 ≤ s ≤ n`, `n0 ≥ 0` (and the prior `p0 ∈ [0,1]`, as the
data model requires of a `TeamPrior`), it returns
`p_hat = (p0*n0 + s)/total` with `total = n0 + n > 0` and
`sigma = sqrt(alpha*beta/(total^2*(total+1)))` when `total > 1`
(`sigma = 0` otherwise), and returns `(p0, 0)` when `total ≤ 0`. -/
theorem eb_rate_spec (s n p0 n0 : ℚ) (hs : 0 ≤ s) (hsn : s ≤ n)
    (hn0 : 0 ≤ n0) (hp0 : 0 ≤ p0) (hp1 : p0 ≤ 1) :
    (0 < n0 + n →
      (eb_rate s n p0 n0).1 = (p0 * n0 + s) / (n0 + n) ∧
      (eb_rate s n p0 n0).2 =
        Real.sqrt (((if 1 < n0 + n then
            ((p0 * n0 + s) * ((1 - p0) * n0 + (n - s))) /
              ((n0 + n) * (n0 + n) * (n0 + n + 1))
          else 0) : ℚ) : ℝ)) ∧
    (n0 + n ≤ 0 → eb_rate s n p0 n0 = (p0, 0)) ∧
    eb_rate 3 5 (2/10) 4 = (19/45, Real.sqrt ((247/10125 : ℚ) : ℝ)) := by
  have hn : 0 ≤ n := le_trans hs hsn
  have e1 : min (max p0 0) 1 = p0 := by
    rw [max_eq_left hp0, min_eq_left hp1]
  have e2 : max n 0 = n := max_eq_left hn
  have e3 : min (max s 0) n = s := by
    rw [max_eq_left hs, min_eq_left hsn]
  have e4 : max n0 0 = n0 := max_eq_left hn0
  have etot : p0 * n0 + s + ((1 - p0) * n0 + (n - s)) = n0 + n := by ring
  refine ⟨?_, ?_, ?_⟩
  · intro hpos
    simp only [eb_rate, e1, e2, e3, e4, etot]
    rw [if_neg (not_le.mpr hpos)]
    refine ⟨rfl, ?_⟩
    have hv : 0 ≤ (if 1 < n0 + n then
        ((p0 * n0 + s) * ((1 - p0) * n0 + (n - s))) /
          ((n0 + n) * (n0 + n) * (n0 + n + 1))
      else 0 : ℚ) := by
      split_ifs with h1
      · apply div_nonneg
        · apply mul_nonneg
          · have := mul_nonneg hp0 hn0
            linarith
          · have : 0 ≤ (1 - p0) * n0 := mul_nonneg (by linarith) hn0
            linarith
        · have h2 : (0 : ℚ) < (n0 + n) * (n0 + n) * (n0 + n + 1) :=
            mul_pos (mul_pos hpos hpos) (by linarith)
          exact le_of_lt h2
      · exact le_refl 0
    simp only [max_eq_left hv]
  · intro hle
    simp only [eb_rate, e1, e2, e3, e4, etot]
    rw [if_pos hle]
  · simp only [eb_rate]
    norm_num [max_def, min_def]

/-- **C6.** `compute_team_prior`, after restricting rates to `[0,1]`
(non-finite values do not exist over `ℚ`): returns the fallback when the
cleaned list is empty; with winsorizing and ≥ 10 samples, clips every
value to the list's own 5th/95th interpolated percentile band and returns
the exact mean of the clipped values; with winsorizing and < 10 samples,
returns the fallback (a `TeamPrior` fallback lies in `[0,1]`, so the final
clamp is a no-op); otherwise returns the arithmetic mean clamped to
`[0,1]`. -/
theorem compute_team_prior_spec (rates : List ℚ) (winsor : Bool)
    (fallback : ℚ) (hfb0 : 0 ≤ fallback) (hfb1 : fallback ≤ 1) :
    (rates.filter (fun v => decide (0 ≤ v) && decide (v ≤ 1)) = [] →
      compute_team_prior rates winsor fallback = fallback) ∧
    (∀ cleanS, cleanS =
        (rates.filter (fun v => decide (0 ≤ v) && decide (v ≤ 1))).mergeSort
          (fun a b => decide (a ≤ b)) →
      cleanS ≠ [] →
      ((winsor = true → 10 ≤ cleanS.length →
        compute_team_prior rates winsor fallback =
          (cleanS.map (fun v =>
            min (max v (_quantile cleanS (5/100))) (_quantile cleanS (95/100)))).sum /
            (cleanS.length : ℚ)) ∧
      (winsor = true → cleanS.length < 10 →
        compute_team_prior rates winsor fallback = fallback) ∧
      (winsor = false →
        compute_team_prior rates winsor fallback =
          min (max (cleanS.sum / (cleanS.length : ℚ)) 0) 1))) := by
  constructor
  · intro hempty
    simp only [compute_team_prior, hempty]
    rfl
  · intro cleanS hdef hne
    set clean := rates.filter (fun v => decide (0 ≤ v) && decide (v ≤ 1)) with hclean
    have hcne : ¬clean.isEmpty := by
      intro hc
      apply hne
      rw [hdef, List.isEmpty_iff.mp hc]
      simp
    have hmemS : ∀ x ∈ cleanS, 0 ≤ x ∧ x ≤ 1 := by
      intro x hx
      have hxc : x ∈ clean := by
        have hperm := List.mergeSort_perm clean (fun a b => decide (a ≤ b))
        rw [hdef] at hx
        exact hperm.mem_iff.mp hx
      have := List.of_mem_filter hxc
      simp only [Bool.and_eq_true, decide_eq_true_eq] at this
      exact this
    refine ⟨?_, ?_, ?_⟩
    · intro hw hlen
      simp only [compute_team_prior, if_neg hcne, hw, ← hdef, Bool.true_and,
        decide_eq_true_eq]
      rw [if_pos hlen]
      set lower := _quantile cleanS (5/100) with hlow
      set upper := _quantile cleanS (95/100) with hup
      obtain ⟨hl0, hl1⟩ := _quantile_mem_Icc hmemS (5/100)
      obtain ⟨hu0, hu1⟩ := _quantile_mem_Icc hmemS (95/100)
      set clipped := cleanS.map (fun v => min (max v lower) upper) with hclip
      have hclipmem : ∀ x ∈ clipped, 0 ≤ x ∧ x ≤ 1 := by
        intro x hx
        rw [hclip] at hx
        obtain ⟨v, hv, rfl⟩ := List.mem_map.mp hx
        obtain ⟨hv0, _⟩ := hmemS v hv
        constructor
        · exact le_min (le_trans hv0 (le_max_left _ _)) hu0
        · exact le_trans (min_le_right _ _) hu1
      have hlenpos : 0 < clipped.length := by
        rw [hclip, List.length_map]
        exact List.length_pos.mpr hne
      have hmean0 : 0 ≤ clipped.sum / (clipped.length : ℚ) := by
        apply div_nonneg (list_sum_nonneg (fun x hx => (hclipmem x hx).1))
        positivity
      have hmean1 : clipped.sum / (clipped.length : ℚ) ≤ 1 := by
        rw [div_le_one (by exact_mod_cast hlenpos)]
        simpa using list_sum_le_length (fun x hx => (hclipmem x hx).2)
      rw [max_eq_left hmean0, min_eq_left hmean1]
      rw [hclip, List.length_map]
    · intro hw hlen
      simp only [compute_team_prior, if_neg hcne, hw, ← hdef, Bool.true_and,
        decide_eq_true_eq]
      rw [if_neg (not_le.mpr hlen), if_pos trivial]
      rw [max_eq_left hfb0, min_eq_left hfb1]
    · intro hw
      simp only [compute_team_prior, if_neg hcne, hw, ← hdef, Bool.false_and,
        decide_eq_true_eq]
      rw [if_neg (by simp), if_neg (by simp)]

/-- Witness for `eb_rate_spec` at the spec's own fixture
`p0=0.2, n0=4, s=3, n=5`. -/
theorem eb_rate_spec_witness :
    eb_rate 3 5 (2/10) 4 = (19/45, Real.sqrt ((247/10125 : ℚ) : ℝ)) :=
  (eb_rate_spec 3 5 (2/10) 4 (by norm_num) (by norm_num) (by norm_num)
    (by norm_num) (by norm_num)).2.2

/-- Witness for `compute_team_prior_spec`: winsorizing with a single
sample returns the fallback. -/
theorem compute_team_prior_spec_witness :
    compute_team_prior [1/2] true (3/10) = 3/10 := by
  have h := compute_team_prior_spec [1/2] true (3/10) (by norm_num) (by norm_num)
  have hs : ((([1/2] : List ℚ).filter
      (fun v => decide (0 ≤ v) && decide (v ≤ 1))).mergeSort
      (fun a b => decide (a ≤ b))) = [1/2] := by
    norm_num [List.filter]
  exact (h.2 _ rfl (by rw [hs]; simp)).2.1 rfl (by rw [hs]; norm_num)

/-- **C8.** When `half_life_days ≤ 0`, `exp_decay_weight` is exactly `1`
for every record regardless of age, so for every player the weighted
aggregates of `_agg_rates` equal the unweighted ones
(`w_assignments = assignments`, `w_shows = shows`,
`w_noshow_rate = noshow_rate`); in particular 5 shows and 1 no-show over
6 assignments give weighted and unweighted no-show rate `1/6`. -/
theorem decay_identity_spec (hl : ℚ) (hhl : hl ≤ 0) :
    (∀ r : AttRec, exp_decay_weight r.age_days hl = 1) ∧
    (∀ recs : List AttRec,
      agg_w_assignments hl recs = (agg_assignments recs : ℝ) ∧
      agg_w_shows hl recs = (agg_shows recs : ℝ) ∧
      agg_w_noshow_rate hl recs = ((agg_noshow_rate recs : ℚ) : ℝ)) ∧
    (agg_noshow_rate recs6 = 1/6 ∧
      agg_w_noshow_rate hl recs6 = ((1/6 : ℚ) : ℝ)) := by
  have hw : ∀ r : AttRec, recW hl r = 1 := by
    intro r
    unfold recW exp_decay_weight
    simp only [if_pos hhl]
  have hmain : ∀ recs : List AttRec,
      agg_w_assignments hl recs = (agg_assignments recs : ℝ) ∧
      agg_w_shows hl recs = (agg_shows recs : ℝ) ∧
      agg_w_noshow_rate hl recs = ((agg_noshow_rate recs : ℚ) : ℝ) := by
    intro recs
    have h1 : agg_w_assignments hl recs = (agg_assignments recs : ℝ) := by
      unfold agg_w_assignments agg_assignments
      rw [List.map_congr_left (fun r _ => hw r)]
      exact list_sum_map_one recs
    have h2 : agg_w_shows hl recs = (agg_shows recs : ℝ) := by
      unfold agg_w_shows agg_shows
      have : recs.map (fun r => (if r.attended then (1 : ℝ) else 0) * recW hl r)
          = recs.map (fun r => if r.attended then (1 : ℝ) else 0) := by
        apply List.map_congr_left
        intro r _
        rw [hw r, mul_one]
      rw [this, list_sum_map_indicator]
    refine ⟨h1, h2, ?_⟩
    unfold agg_w_noshow_rate agg_w_show_rate agg_noshow_rate agg_show_rate
    rw [h1, h2]
    rcases Nat.eq_zero_or_pos (agg_assignments recs) with hz | hp
    · rw [hz]
      norm_num
    · rw [if_pos (by exact_mod_cast hp), if_pos hp]
      push_cast
      ring
  have hfix : agg_noshow_rate recs6 = 1/6 := by
    simp only [recs6, agg_noshow_rate, agg_show_rate, agg_shows,
      agg_assignments, List.filter, List.length]
    norm_num
  refine ⟨?_, hmain, hfix, ?_⟩
  · intro r
    unfold exp_decay_weight
    simp only [if_pos hhl]
  · rw [(hmain recs6).2.2, hfix]

/-- Witness for `decay_identity_spec` at `half_life_days = 0` and the
6-assignment fixture. -/
theorem decay_identity_spec_witness :
    agg_noshow_rate recs6 = 1/6 ∧
      agg_w_noshow_rate 0 recs6 = ((1/6 : ℚ) : ℝ) :=
  (decay_identity_spec 0 (by norm_num)).2.2

/-- **C9.** In `_prep`, every event whose assigned (Start/Ersatz) rows
number at least 3 and all have `attended = false` is removed entirely
before any per-player rates are computed; events with fewer than 3
assigned rows or with at least one attended row are kept; and the
per-player aggregation inputs contain no row of a dropped event. -/
theorem dropMissingEvents_spec (rows : List EventRow) (e : String) :
    (3 ≤ (eventAssignedRows rows e).length →
      (∀ r ∈ eventAssignedRows rows e, r.attended = false) →
      ∀ r ∈ rows, r.eventID = e → r ∉ dropMissingEvents rows) ∧
    ((eventAssignedRows rows e).length < 3 ∨
        (∃ r ∈ eventAssignedRows rows e, r.attended = true) →
      ∀ r ∈ rows, r.eventID = e → r ∈ dropMissingEvents rows) ∧
    (∀ p r, r ∈ perPlayerAssigned (dropMissingEvents rows) p →
      isMissingEvent rows r.eventID = false) := by
  have hchar : ∀ ev, isMissingEvent rows ev = true ↔
      (3 ≤ (eventAssignedRows rows ev).length ∧
        ∀ r ∈ eventAssignedRows rows ev, r.attended = false) := by
    intro ev
    unfold isMissingEvent
    simp only [Bool.and_eq_true, decide_eq_true_eq, beq_iff_eq,
      List.countP_eq_zero]
    constructor
    · rintro ⟨h3, hall⟩
      exact ⟨h3, fun r hr => by simpa using hall r hr⟩
    · rintro ⟨h3, hall⟩
      exact ⟨h3, fun r hr => by simp [hall r hr]⟩
  refine ⟨?_, ?_, ?_⟩
  · intro h3 hall r hr he hmem
    rw [dropMissingEvents, List.mem_filter] at hmem
    have : isMissingEvent rows r.eventID = true := by
      rw [he]
      exact (hchar e).mpr ⟨h3, hall⟩
    rw [this] at hmem
    simp at hmem
  · intro hcase r hr he
    rw [dropMissingEvents, List.mem_filter]
    refine ⟨hr, ?_⟩
    have : isMissingEvent rows r.eventID = false := by
      rw [he]
      rw [Bool.eq_false_iff]
      intro hm
      obtain ⟨h3, hall⟩ := (hchar e).mp hm
      rcases hcase with hlt | ⟨r', hr', hatt⟩
      · omega
      · rw [hall r' hr'] at hatt
        simp at hatt
    simp [this]
  · intro p r hrmem
    rw [perPlayerAssigned, List.mem_filter] at hrmem
    have hdrop := hrmem.1
    rw [dropMissingEvents, List.mem_filter] at hdrop
    have := hdrop.2
    simpa using this

/-! ### Lemmas for `canonical_name` -/

theorem list_map_id_of {α : Type} (f : α → α) (l : List α)
    (h : ∀ a ∈ l, f a = a) : l.map f = l := by
  induction l with
  | nil => rfl
  | cons a t ih => simp [h a (by simp), ih (fun x hx => h x (by simp [hx]))]

theorem homoF_out (c : Char) :
    homoF c = c ∨ homoF c ∈ homoTable.map (fun p => p.2) := by
  unfold homoF
  cases h : homoTable.find? (fun p => p.1 == c) with
  | none => left; rfl
  | some p =>
    right
    simp only [Option.map_some', Option.getD_some]
    exact List.mem_map.mpr ⟨p, List.mem_of_find?_eq_some h, rfl⟩

theorem pyLower_out (c : Char) :
    pyLower c = c ∨ pyLower c ∈ lowerTable.map (fun p => p.2) := by
  unfold pyLower
  cases h : lowerTable.find? (fun p => p.1 == c) with
  | none => left; rfl
  | some p =>
    right
    simp only [Option.map_some', Option.getD_some]
    exact List.mem_map.mpr ⟨p, List.mem_of_find?_eq_some h, rfl⟩

theorem homo_out_not_zw : ∀ d ∈ homoTable.map (fun p => p.2), isZW d = false := by
  decide

theorem lower_out_not_zw : ∀ d ∈ lowerTable.map (fun p => p.2), isZW d = false := by
  decide

theorem lower_out_fixed : ∀ d ∈ lowerTable.map (fun p => p.2), pyLower d = d := by
  decide

theorem pyLower_idem (c : Char) : pyLower (pyLower c) = pyLower c := by
  rcases pyLower_out c with h | h
  · rw [h, h]
  · exact lower_out_fixed _ h

theorem wordsAux_props : ∀ (l acc : List Char),
    (∀ c ∈ acc, isSpace c = false) →
    ∀ w ∈ wordsAux l acc, w ≠ [] ∧ ∀ c ∈ w, isSpace c = false := by
  intro l
  induction l with
  | nil =>
    intro acc hacc w hw
    unfold wordsAux at hw
    split at hw
    · simp at hw
    · next hne =>
      simp only [List.mem_singleton] at hw
      subst hw
      refine ⟨?_, ?_⟩
      · have : acc ≠ [] := by simpa [List.isEmpty_iff] using hne
        simpa [List.reverse_eq_nil_iff] using this
      · intro c hc
        exact hacc c (List.mem_reverse.mp hc)
  | cons a t ih =>
    intro acc hacc w hw
    unfold wordsAux at hw
    by_cases hs : isSpace a
    · rw [if_pos hs] at hw
      by_cases he : acc.isEmpty
      · rw [if_pos he] at hw
        exact ih [] (by simp) w hw
      · rw [if_neg he] at hw
        rcases List.mem_cons.mp hw with rfl | hw'
        · refine ⟨?_, ?_⟩
          · have : acc ≠ [] := by simpa [List.isEmpty_iff] using he
            simpa [List.reverse_eq_nil_iff] using this
          · intro c hc
            exact hacc c (List.mem_reverse.mp hc)
        · exact ih [] (by simp) w hw'
    · rw [if_neg hs] at hw
      refine ih (a :: acc) ?_ w hw
      intro c hc
      rcases List.mem_cons.mp hc with rfl | hc'
      · simpa using hs
      · exact hacc c hc'

theorem wordsAux_mem_sub : ∀ (l acc w : List Char) (c : Char),
    w ∈ wordsAux l acc → c ∈ w → c ∈ l ∨ c ∈ acc := by
  intro l
  induction l with
  | nil =>
    intro acc w c hw hc
    unfold wordsAux at hw
    split at hw
    · simp at hw
    · simp only [List.mem_singleton] at hw
      subst hw
      exact Or.inr (List.mem_reverse.mp hc)
  | cons a t ih =>
    intro acc w c hw hc
    unfold wordsAux at hw
    by_cases hs : isSpace a
    · rw [if_pos hs] at hw
      by_cases he : acc.isEmpty
      · rw [if_pos he] at hw
        rcases ih [] w c hw hc with h | h
        · exact Or.inl (by simp [h])
        · simp at h
      · rw [if_neg he] at hw
        rcases List.mem_cons.mp hw with rfl | hw'
        · exact Or.inr (List.mem_reverse.mp hc)
        · rcases ih [] w c hw' hc with h | h
          · exact Or.inl (by simp [h])
          · simp at h
    · rw [if_neg hs] at hw
      rcases ih (a :: acc) w c hw hc with h | h
      · exact Or.inl (by simp [h])
      · rcases List.mem_cons.mp h with rfl | h'
        · exact Or.inl (by simp)
        · exact Or.inr h'

theorem wordsAux_append_word : ∀ (wd l acc : List Char),
    (∀ c ∈ wd, isSpace c = false) →
    wordsAux (wd ++ l) acc = wordsAux l (wd.reverse ++ acc) := by
  intro wd
  induction wd with
  | nil => intro l acc _; simp
  | cons a t ih =>
    intro l acc h
    have ha : isSpace a = false := h a (by simp)
    simp only [List.cons_append]
    rw [show wordsAux (a :: (t ++ l)) acc = wordsAux (t ++ l) (a :: acc) from by
      simp only [wordsAux]; rw [if_neg (by simp [ha])]]
    rw [ih l (a :: acc) (fun c hc => h c (by simp [hc]))]
    simp [List.append_assoc]

theorem joinWords_cons_cons (w w' : List Char) (ws : List (List Char)) :
    joinWords (w :: w' :: ws) = w ++ ' ' :: joinWords (w' :: ws) := rfl

theorem joinWords_ne_nil (w : List Char) (ws : List (List Char)) (hw : w ≠ []) :
    joinWords (w :: ws) ≠ [] := by
  cases ws with
  | nil => simpa [joinWords] using hw
  | cons w' ws' => simp [joinWords_cons_cons]

theorem mem_joinWords : ∀ (ws : List (List Char)) (c : Char),
    c ∈ joinWords ws → (∃ w ∈ ws, c ∈ w) ∨ c = ' ' := by
  intro ws
  induction ws with
  | nil => intro c hc; simp [joinWords] at hc
  | cons w ws ih =>
    intro c hc
    cases ws with
    | nil =>
      exact Or.inl ⟨w, by simp, by simpa [joinWords] using hc⟩
    | cons w' ws' =>
      rw [joinWords_cons_cons] at hc
      rcases List.mem_append.mp hc with h | h
      · exact Or.inl ⟨w, by simp, h⟩
      · rcases List.mem_cons.mp h with rfl | h'
        · exact Or.inr rfl
        · rcases ih c h' with ⟨w'', hw'', hc''⟩ | hsp
          · exact Or.inl ⟨w'', by simp [hw''], hc''⟩
          · exact Or.inr hsp

theorem joinWords_reverse_head : ∀ (ws : List (List Char)),
    (∀ w ∈ ws, w ≠ [] ∧ ∀ c ∈ w, isSpace c = false) →
    (joinWords ws).reverse = [] ∨
      ∃ c t, (joinWords ws).reverse = c :: t ∧ isSpace c = false := by
  intro ws
  induction ws with
  | nil => intro _; left; rfl
  | cons w ws ih =>
    intro hp
    obtain ⟨hwne, hwsp⟩ := hp w (by simp)
    cases ws with
    | nil =>
      right
      have hrev : w.reverse ≠ [] := by simpa [List.reverse_eq_nil_iff] using hwne
      obtain ⟨c, t, hct⟩ := List.exists_cons_of_ne_nil hrev
      refine ⟨c, t, by simpa [joinWords] using hct, ?_⟩
      have hcw : c ∈ w := List.mem_reverse.mp (hct ▸ List.mem_cons_self c t)
      exact hwsp c hcw
    | cons w' ws' =>
      right
      have hJne : joinWords (w' :: ws') ≠ [] :=
        joinWords_ne_nil w' ws' (hp w' (by simp)).1
      rcases ih (fun x hx => hp x (by simp [hx])) with h0 | ⟨c, t, hct, hcs⟩
      · exact absurd (by simpa [List.reverse_eq_nil_iff] using h0) hJne
      · refine ⟨c, t ++ ' ' :: w.reverse, ?_, hcs⟩
        rw [joinWords_cons_cons, List.reverse_append]
        simp [hct]

theorem stripWs_joinWords (ws : List (List Char))
    (hp : ∀ w ∈ ws, w ≠ [] ∧ ∀ c ∈ w, isSpace c = false) :
    stripWs (joinWords ws) = joinWords ws := by
  have hfront : (joinWords ws).dropWhile isSpace = joinWords ws := by
    cases ws with
    | nil => rfl
    | cons w ws' =>
      obtain ⟨hwne, hwsp⟩ := hp w (by simp)
      obtain ⟨c, t, rfl⟩ := List.exists_cons_of_ne_nil hwne
      have hc : isSpace c = false := hwsp c (by simp)
      cases ws' with
      | nil => simp [joinWords, List.dropWhile_cons, hc]
      | cons w' ws'' =>
        rw [joinWords_cons_cons]
        simp [List.dropWhile_cons, hc]
  unfold stripWs
  rw [hfront]
  rcases joinWords_reverse_head ws hp with h0 | ⟨c, t, hct, hcs⟩
  · have h1 : joinWords ws = [] := by
      rw [← List.reverse_reverse (joinWords ws), h0]
      rfl
    rw [h0]
    simp [h1]
  · rw [hct, List.dropWhile_cons]
    rw [if_neg (by simp [hcs])]
    rw [← hct, List.reverse_reverse]

theorem wordsOf_joinWords : ∀ (ws : List (List Char)),
    (∀ w ∈ ws, w ≠ [] ∧ ∀ c ∈ w, isSpace c = false) →
    wordsOf (joinWords ws) = ws := by
  intro ws
  induction ws with
  | nil => intro _; rfl
  | cons w ws ih =>
    intro hp
    obtain ⟨hwne, hwsp⟩ := hp w (by simp)
    cases ws with
    | nil =>
      show wordsAux (joinWords [w]) [] = [w]
      rw [show joinWords [w] = w ++ [] from by simp [joinWords]]
      rw [wordsAux_append_word w [] [] hwsp]
      unfold wordsAux
      rw [if_neg (by simpa [List.isEmpty_iff, List.reverse_eq_nil_iff] using hwne)]
      simp
    | cons w' ws' =>
      show wordsAux (joinWords (w :: w' :: ws')) [] = w :: w' :: ws'
      rw [joinWords_cons_cons]
      rw [wordsAux_append_word w _ [] hwsp]
      unfold wordsAux
      rw [if_pos (by decide : isSpace ' ' = true)]
      rw [if_neg (by simpa [List.isEmpty_iff, List.reverse_eq_nil_iff] using hwne)]
      have := ih (fun x hx => hp x (by simp [hx]))
      unfold wordsOf at this
      simp [this]

theorem mem_stripWs {c : Char} {l : List Char} (h : c ∈ stripWs l) : c ∈ l := by
  unfold stripWs at h
  rw [List.mem_reverse] at h
  have h1 : c ∈ (l.dropWhile isSpace).reverse :=
    (List.dropWhile_sublist _).subset h
  rw [List.mem_reverse] at h1
  exact (List.dropWhile_sublist _).subset h1

/-! ### Claim theorems: `canonical_name` -/

/-- **C10 counterexample.** `canonical_name` is not idempotent on all
strings: on `"Ѵ"` (U+0474 CYRILLIC CAPITAL LETTER IZHITSA, the one
Cyrillic letter whose lowercase form `ѵ` is a `HOMO_TRANSLATE` key while
the capital itself is not) one application yields `"ѵ"` and a second
application yields `"y"`. -/
theorem canonical_name_not_idempotent :
    canonical_name (canonical_name "Ѵ") ≠ canonical_name "Ѵ" ∧
    canonical_name "Ѵ" = "ѵ" ∧ canonical_name (canonical_name "Ѵ") = "y" := by
  refine ⟨by decide, by decide, by decide⟩

/-- **C10 (amended).** `canonical_name` is idempotent on every string all
of whose characters are pass-stable (`fixedAfterPass`): keys already
produced by the normalizer are unchanged by re-normalization unless the
original string contained a character such as `Ѵ` (U+0474) whose
lowercase form the homoglyph fold remaps while the character itself is
left alone. -/
theorem canonical_name_idem (s : String)
    (h : ∀ c ∈ s.data, fixedAfterPass c = true) :
    canonical_name (canonical_name s) = canonical_name s := by
  have hWprops : ∀ w' ∈ wordsOf ((s.data.filter (fun c => !(isZW c))).map homoF |>.map pyLower),
      w' ≠ [] ∧ ∀ c ∈ w', isSpace c = false :=
    fun w' hw' => wordsAux_props _ [] (by simp) w' hw'
  set l3 := ((s.data.filter (fun c => !(isZW c))).map homoF).map pyLower with hl3
  set w := wordsOf l3 with hwdef
  have hJ1 : stripWs (joinWords w) = joinWords w := stripWs_joinWords w hWprops
  have hname : canonical_name s = String.mk (joinWords w) := by
    simp only [canonical_name, ← hl3, ← hwdef, hJ1]
  have hychar : ∀ c ∈ joinWords w, isZW c = false ∧ homoF c = c ∧ pyLower c = c := by
    intro c hc
    rcases mem_joinWords w c hc with ⟨w', hw', hcw⟩ | rfl
    · have hcl3 : c ∈ l3 := by
        rcases wordsAux_mem_sub l3 [] w' c hw' hcw with h3 | h0
        · exact h3
        · simp at h0
      rw [hl3] at hcl3
      obtain ⟨b, hb, rfl⟩ := List.mem_map.mp hcl3
      obtain ⟨a, ha, rfl⟩ := List.mem_map.mp hb
      have hazw : isZW a = false := by
        have := List.of_mem_filter ha
        simpa using this
      have hamem : a ∈ s.data := List.mem_of_mem_filter ha
      refine ⟨?_, eq_of_beq (h a hamem), pyLower_idem _⟩
      rcases homoF_out a with h1 | h1
      · rw [h1]
        rcases pyLower_out a with h2 | h2
        · rw [h2]; exact hazw
        · exact lower_out_not_zw _ h2
      · rcases pyLower_out (homoF a) with h2 | h2
        · rw [h2]; exact homo_out_not_zw _ h1
        · exact lower_out_not_zw _ h2
    · exact ⟨by decide, by decide, by decide⟩
  rw [hname]
  have hdata : (String.mk (joinWords w)).data = joinWords w := rfl
  simp only [canonical_name, hdata]
  have s1 : (joinWords w).filter (fun c => !(isZW c)) = joinWords w :=
    List.filter_eq_self.mpr (fun c hc => by simp [(hychar c hc).1])
  have s2 : (joinWords w).map homoF = joinWords w :=
    list_map_id_of _ _ (fun c hc => (hychar c hc).2.1)
  have s3 : (joinWords w).map pyLower = joinWords w :=
    list_map_id_of _ _ (fun c hc => (hychar c hc).2.2)
  rw [s1, s2, s3, wordsOf_joinWords w hWprops, hJ1]

/-- Witness for `canonical_name_idem` on a string with homoglyphs,
mixed case and ragged spacing. -/
theorem canonical_name_idem_witness :
    canonical_name (canonical_name " MАrio   Х ") = canonical_name " MАrio   Х " :=
  canonical_name_idem _ (by decide)

/-! ### Claim theorems: the roster builder -/

/-- **C3.** On every input on which `build_deterministic_roster` returns
normally, no player name appears in more than one roster row, and for
every (group, role) the number of returned rows equals the remaining
capacity passed for that slot plus the number of forced assignments
placed into that slot (the source version never permits under-filled
slots, so the counts are exact). -/
theorem build_roster_invariants (df : ProbsDF) (forced : List ForcedItem)
    (capsSpec : Option (Group → Role → Option Int)) (cap : Int)
    (out : List RRow)
    (h : build_deterministic_roster df forced capsSpec cap = .ok out) :
    (out.map (fun r => r.playerName)).Nodup ∧
    ∀ g ro, countSlot out g ro =
      capVal capsSpec g ro + countSlot (forcedRowsAux forced [] []).2 g ro := by
  unfold build_deterministic_roster at h
  split_ifs at h with h1
  cases hfs : fillSlots (df.hasEventsSeen && decide (0 ≤ cap)) cap
      (buildCands df) (buildOrder capsSpec)
      ⟨(forcedRowsAux forced [] []).1, (forcedRowsAux forced [] []).2, 0, 0⟩
    with
  | error e =>
    rw [hfs] at h
    exact absurd h (by simp)
  | ok st =>
    rw [hfs] at h
    dsimp only at h
    unfold buildAsserts at h
    split_ifs at h with hdup hAS hAE hBS hBE
    simp only [Except.ok.injEq] at h
    subst h
    refine ⟨hdup, ?_⟩
    intro g ro
    cases g <;> cases ro
    · exact not_ne_iff.mp hAS
    · exact not_ne_iff.mp hAE
    · exact not_ne_iff.mp hBS
    · exact not_ne_iff.mp hBE

/-- Witness for `build_roster_invariants`: a successful run with one
forced Team-B starter and two scored Team-A starters. -/
theorem build_roster_invariants_witness :
    ((([⟨"dora", .B, .Start⟩, ⟨"anna", .A, .Start⟩,
        ⟨"ben", .A, .Start⟩] : List RRow)).map (fun r => r.playerName)).Nodup ∧
    ∀ g ro, countSlot [⟨"dora", .B, .Start⟩, ⟨"anna", .A, .Start⟩,
        ⟨"ben", .A, .Start⟩] g ro =
      capVal (some caps3A) g ro +
        countSlot (forcedRowsAux [⟨"Dora", "B", "Start"⟩] [] []).2 g ro :=
  build_roster_invariants df3 [⟨"Dora", "B", "Start"⟩] (some caps3A) 2 _
    (by with_unfolding_all rfl)

/-- **C7 counterexample.** With an empty candidate pool and one
remaining Team-A starter slot, `_pick_for` returns an *empty* frame
instead of raising, and the failure then surfaces as the capacity
assertion `"Wrong starters in A"` — an error that names the group but is
not the shortage `RuntimeError` and does not name the number of missing
candidates. -/
theorem completion_check_counterexample :
    build_deterministic_roster dfEmpty [] (some capsOneAStart) 2 =
      .error "Wrong starters in A" ∧
    (∀ g ro k, (Except.error (missingMsg g ro k) :
        Except String (List RRow)) ≠
      build_deterministic_roster dfEmpty [] (some capsOneAStart) 2) ∧
    ¬ List.IsInfix "1".data "Wrong starters in A".data := by
  refine ⟨by rfl, ?_, by decide⟩
  intro g ro k hmsg
  rw [show build_deterministic_roster dfEmpty [] (some capsOneAStart) 2 =
      .error "Wrong starters in A" from by rfl] at hmsg
  simp only [Except.error.injEq] at hmsg
  exact missingMsg_ne_assert g ro k hmsg

/-- **C7 (amended).** Whenever `_pick_for` runs for a slot with at least
one remaining candidate row, it never returns an under-filled selection:
a normal return carries exactly `count` rows, and if the capacity cannot
be met after the preference categories and the leftover pass the result
is the raised `RuntimeError` naming the slot's group and role and the
number of missing candidates.  (With *zero* remaining candidates the
source returns early and the failure surfaces as the capacity assertion
instead, see the counterexample.) -/
theorem pickFor_shortage_spec (ge : Bool) (cap : Int) (cands : List Cand)
    (used : List String) (nd : Nat) (g : Group) (ro : Role) (count : Nat)
    (hne : sortCandidates cands used g ro ≠ []) :
    (∀ sel nd', pickFor ge cap cands used nd g ro count = .ok (sel, nd') →
      sel.length = count) ∧
    (∀ m, pickFor ge cap cands used nd g ro count = .error m →
      ∃ k, 0 < k ∧ m = missingMsg g ro k) := by
  unfold pickFor
  rw [if_neg (by simpa [List.isEmpty_iff] using hne)]
  set sorted := sortCandidates cands used g ro with hsorted
  set st0 := pickCats ge cap ro sorted (categories g) ⟨[], count, nd⟩
    with hst0
  have hlen0 : st0.selected.length + st0.remaining = count := by
    have := pickCats_len ge cap ro sorted (categories g) ⟨[], count, nd⟩
    simpa using this
  have hlen1 : (pickLeftover ge cap ro sorted st0).selected.length +
      (pickLeftover ge cap ro sorted st0).remaining = count := by
    unfold pickLeftover
    split_ifs with hrem
    · have htf := (takeFrom_spec ge cap ro
        (sorted.filter
          (fun c => !((st0.selected.map (fun x => x.name)).contains c.name)))
        st0.remaining st0.noData).1
      simp only [List.length_append]
      omega
    · exact hlen0
  set st1 := pickLeftover ge cap ro sorted st0 with hst1
  unfold pickFinish
  by_cases hrem1 : st1.remaining = 0
  · rw [if_neg (by simp [hrem1])]
    constructor
    · intro sel nd' hok
      simp only [Except.ok.injEq, Prod.mk.injEq] at hok
      rw [← hok.1]
      omega
    · intro m hm
      exact absurd hm (by simp)
  · rw [if_pos (by simp [hrem1])]
    constructor
    · intro sel nd' hok
      exact absurd hok (by simp)
    · intro m hm
      simp only [Except.error.injEq] at hm
      exact ⟨st1.remaining, by omega, hm.symm⟩

/-- Witness for `pickFor_shortage_spec`: one candidate for two slots
raises the message naming `A Start` and the deficit `1`. -/
theorem pickFor_shortage_spec_witness :
    ∃ k, 0 < k ∧ missingMsg Group.A Role.Start 1 = missingMsg Group.A Role.Start k :=
  (pickFor_shortage_spec false 2 (buildCands df5) [] 0 Group.A Role.Start 2
    (by decide)).2 (missingMsg Group.A Role.Start 1) (by rfl)

/-- **C4 counterexample.** Canonical name is *not* the final tie-break
between two candidates with equal slot score and equal role-appropriate
probability: on `df4` both candidates have score `1/2` and `p_start
= 1/2` for Team-A Start, yet the sorted order is `["b", "a"]` (driven by
the other-role probability `p_sub`), while name order would put `"a"`
first. -/
theorem sort_name_tiebreak_counterexample :
    ((sortCandidates (buildCands df4) [] .A .Start).map (fun c => c.name) =
      ["b", "a"]) ∧
    ((sortCandidates (buildCands df4) [] .A .Start).map
      (fun c => c.score .A .Start) = [1/2, 1/2]) ∧
    ((sortCandidates (buildCands df4) [] .A .Start).map
      (fun c => c.pRole .Start .A) = [1/2, 1/2]) ∧
    strLE "a" "b" = true ∧ strLE "b" "a" = false := by
  refine ⟨?_, ?_, ?_, by decide, by decide⟩
  · with_unfolding_all rfl
  · with_unfolding_all rfl
  · with_unfolding_all rfl

/-- **C4 (amended).** Within each preference category (all categories
draw from the same stably sorted frame), `_sort_candidates` orders the
unused candidates by slot score descending, then role-appropriate raw
probability descending, then the *other-role* raw probability
descending, and only then by canonical name ascending; the output is a
permutation of the unused candidate rows. -/
theorem sortCandidates_order (cands : List Cand) (used : List String)
    (g : Group) (ro : Role) :
    List.Pairwise (fun x y => candLE g ro x y = true)
      (sortCandidates cands used g ro) ∧
    (sortCandidates cands used g ro).Perm
      (cands.filter (fun c => !(used.contains c.name))) := by
  constructor
  · exact stableSort_pairwise _ (candLE_trans g ro) (candLE_total g ro) _
  · exact stableSort_perm _ _

/-- **C5.** Every player with a verified hard commitment has their
`attend_prob` clamped upward to the configured `hard_commit_floor`
(default `0.92`) before allocation, and a valid forced assignment is
placed into the final roster regardless of probability: a forced player
whose probability columns are all `0.05` still appears (forced
placements never consult the probabilities). -/
theorem hard_commit_spec :
    (∀ (pool : List (String × ℚ)) (seen : List String) (floorCfg : ℚ)
      (nr : String × ℚ), nr ∈ pool → seen.contains nr.1 = true →
      (nr.1, max nr.2 (min (max floorCfg 0) 1)) ∈
        applyHardCommitFloor pool seen floorCfg) ∧
    min (max hard_commit_floor_default 0) 1 = 92/100 ∧
    (∀ (df : ProbsDF) (forced : List ForcedItem)
      (capsSpec : Option (Group → Role → Option Int)) (cap : Int)
      (out : List RRow) (pre post : List ForcedItem) (item : ForcedItem)
      (g : Group) (r : Role),
      build_deterministic_roster df forced capsSpec cap = .ok out →
      forced = pre ++ item :: post →
      parseGroup item.group = some g →
      parseRole item.role = some r →
      canonical_name item.playerName ≠ "" →
      (forcedRowsAux pre [] []).1.contains (canonical_name item.playerName)
          = false →
      (⟨canonical_name item.playerName, g, r⟩ : RRow) ∈ out) ∧
    build_deterministic_roster df5 [⟨"Lowball", "B", "Start"⟩]
        (some capsZero) 2 = .ok [⟨"lowball", Group.B, Role.Start⟩] := by
  refine ⟨?_, by norm_num [hard_commit_floor_default], ?_,
    by with_unfolding_all rfl⟩
  · intro pool seen floorCfg nr hmem hcont
    unfold applyHardCommitFloor
    refine List.mem_map.mpr ⟨nr, hmem, ?_⟩
    rw [if_pos hcont]
  · intro df forced capsSpec cap out pre post item g r hok hsplit hpg hpr
      hpne hpcont
    have hrow : (⟨canonical_name item.playerName, g, r⟩ : RRow) ∈
        (forcedRowsAux forced [] []).2 := by
      rw [hsplit, forcedRowsAux_append]
      set u1 := (forcedRowsAux pre [] []).1 with hu1
      set a1 := (forcedRowsAux pre [] []).2 with ha1
      unfold forcedRowsAux
      rw [hpg, hpr]
      dsimp only
      rw [if_neg hpne, if_neg (by simpa using hpcont)]
      obtain ⟨suf, hsuf⟩ := forcedRowsAux_suffix post
        (u1 ++ [canonical_name item.playerName])
        (a1 ++ [⟨canonical_name item.playerName, g, r⟩])
      rw [hsuf]
      simp
    obtain ⟨suf, hsuf⟩ := build_ok_rows df forced capsSpec cap out hok
    rw [hsuf]
    exact List.mem_append_left _ hrow

/-- Witness for `hard_commit_spec`: a committed player at `0.1` is
lifted to the default floor `0.92`. -/
theorem hard_commit_spec_witness :
    ("curt", max (1/10) (min (max (92/100) 0) 1)) ∈
      applyHardCommitFloor [("curt", 1/10), ("vera", 9/10)] ["curt"]
        (92/100) :=
  hard_commit_spec.1 [("curt", 1/10), ("vera", 9/10)] ["curt"] (92/100)
    ("curt", 1/10) (List.mem_cons_self _ _) (by decide)

theorem mapConst_filter (l : List FbCand) (s t : String) :
    ((l.map (fun c => (c, s))).filter (fun pr => pr.2 == t)) =
      if s = t then l.map (fun c => (c, s)) else [] := by
  induction l with
  | nil => split_ifs <;> rfl
  | cons c cs ih =>
    by_cases h : s = t
    · subst h
      simp only [List.map_cons, List.filter_cons, ih]
      simp
    · simp only [List.map_cons, List.filter_cons, ih]
      have hb : ((c, s).2 == t) = false := by
        simpa using h
      simp [hb, h]

theorem mapConst_filter_fst (l : List FbCand) (s t : String) :
    (((l.map (fun c => (c, s))).filter
        (fun pr => pr.2 == t)).map Prod.fst) =
      if s = t then l else [] := by
  rw [mapConst_filter]
  by_cases h : s = t
  · rw [if_pos h, if_pos h, List.map_map]
    exact List.map_id' _
  · rw [if_neg h, if_neg h]
    rfl

/-- **C1.** Team-B Start selection with a minimum `attend_prob`
threshold: when the threshold-respecting main pass fills fewer than
`min_b_starters` slots, a fallback pass relaxes the threshold for just
enough additional candidates to reach that minimum (never beyond the
remaining capacity), drawing them from the below-threshold candidates in
the order *fewer `events_seen` first, then canonical name*; every
fallback-pass candidate is tagged with the `selection_stage`
`"B-start-fallback"`, distinct from the main-pass stage
`"B-start-main"`; and on the spec's fixture (equal probability `0.5`,
`events_seen` 10 vs 2, capacity 1) the `events_seen = 2` candidate is
chosen first while both are tagged with the fallback stage. -/
theorem bStart_fallback_spec (cands : List FbCand) (threshold : ℚ)
    (cap minB : Nat)
    (hshort : (bStartMainPick cands threshold cap).length < minB) :
    (((bStartSelection cands threshold cap minB).1.filter
        (fun pr => pr.2 == "B-start-fallback")).map Prod.fst =
      (bStartQueue cands threshold).take
        (bStartNeed cands threshold cap minB)) ∧
    (((bStartSelection cands threshold cap minB).1.filter
        (fun pr => pr.2 == "B-start-main")).map Prod.fst =
      bStartMainPick cands threshold cap) ∧
    List.Pairwise (fun x y => fbFallbackLE x y = true)
      (bStartQueue cands threshold) ∧
    (bStartQueue cands threshold).Perm
      ((stableSort fbMainLE cands).filter
        (fun c => decide (c.attend_prob < threshold))) ∧
    ((bStartSelection cands threshold cap minB).2 =
      (bStartQueue cands threshold).map (fun c => (c, "B-start-fallback"))) ∧
    ("B-start-main" : String) ≠ "B-start-fallback" ∧
    bStartSelection [fbVeteran, fbNewbie] (8/10) 1 1 =
      ([(fbNewbie, "B-start-fallback")],
       [(fbNewbie, "B-start-fallback"), (fbVeteran, "B-start-fallback")]) := by
  have hsel : bStartSelection cands threshold cap minB =
      ((bStartMainPick cands threshold cap).map
          (fun c => (c, "B-start-main")) ++
        ((bStartQueue cands threshold).take
          (bStartNeed cands threshold cap minB)).map
          (fun c => (c, "B-start-fallback")),
       (bStartQueue cands threshold).map (fun c => (c, "B-start-fallback"))) := by
    unfold bStartSelection
    rw [if_pos hshort]
  refine ⟨?_, ?_, ?_, ?_, ?_, by decide, by with_unfolding_all rfl⟩
  · rw [hsel]
    rw [List.filter_append, List.map_append,
      mapConst_filter_fst, mapConst_filter_fst]
    rw [if_neg (by decide), if_pos rfl, List.nil_append]
  · rw [hsel]
    rw [List.filter_append, List.map_append,
      mapConst_filter_fst, mapConst_filter_fst]
    rw [if_pos rfl, if_neg (by decide), List.append_nil]
  · exact stableSort_pairwise _ fbFallbackLE_trans fbFallbackLE_total _
  · exact stableSort_perm _ _
  · rw [hsel]

/-- Witness for `bStart_fallback_spec` at the spec's tie-break fixture
(threshold `0.8`, capacity 1, `min_b_starters` 1). -/
theorem bStart_fallback_spec_witness :
    bStartSelection [fbVeteran, fbNewbie] (8/10) 1 1 =
      ([(fbNewbie, "B-start-fallback")],
       [(fbNewbie, "B-start-fallback"), (fbVeteran, "B-start-fallback")]) :=
  (bStart_fallback_spec [fbVeteran, fbNewbie] (8/10) 1 1
      (by with_unfolding_all decide)).2.2.2.2.2.2

/-- Witness for `dropMissingEvents_spec`: on `rows9`, the fully
unattended 3-assignee event `e1` is dropped and `e2` is kept. -/
theorem dropMissingEvents_spec_witness :
    (⟨"e1", "p", "Start", false⟩ : EventRow) ∉ dropMissingEvents rows9 ∧
    (⟨"e2", "p", "Start", true⟩ : EventRow) ∈ dropMissingEvents rows9 := by
  constructor
  · exact (dropMissingEvents_spec rows9 "e1").1 (by decide) (by decide)
      ⟨"e1", "p", "Start", false⟩ (by decide) rfl
  · exact (dropMissingEvents_spec rows9 "e2").2.1 (Or.inr ⟨⟨"e2", "p", "Start", true⟩, by decide, rfl⟩)
      ⟨"e2", "p", "Start", true⟩ (by decide) rfl

end DS
